import Mathlib

/-!
# Verification of the rich-text editing core (`src/main.js`, `src/paint.js`)

Shallow embedding of the styled-text buffer (`TextModel`), the selection
(`SelectionModel`), the line-breaking layout (`TextLayout.ensure` in its
default, style-unaware mode, together with `PaintCanvas.cutText`), and the
edit controller's history machinery (`TextControl.typeText` / `pushHistory` /
`undo` / `redo`).

Modelling conventions:
* JS strings are modelled as `List Char` (one entry per UTF-16 unit).
* JS numbers used as offsets are modelled as `Int` at the public entry points
  (the code clamps them with `Math.max(0, Math.min(index, len))`) and as `Nat`
  internally after clamping.  Pixel widths, which the code only ever compares
  with `<=`, are modelled as `Nat`, and the measurement collaborator
  `measureText` as an arbitrary function `List Char → Nat`.
* JS arrays mutated in place become functionally updated lists; `splice` and
  `slice` are translated with `List.take` / `List.drop`.
* The undo/redo arrays (`push`/`pop` at the back, `shift` at the front) are
  modelled with the most recent snapshot at the *head* of a `List`, so JS
  `push`+`pop` become `cons`+`head` and JS `shift` becomes `dropLast`.
* Loops are translated into fuel-indexed structural recursions whenever the
  JS loop's termination is by progress (every iteration consumes at least one
  character); the fuel is instantiated with a provably sufficient bound, so
  the definitions compute by kernel reduction.
-/

/-- JS strings, one `Char` per UTF-16 code unit. -/
abbrev Str := List Char

/-- A style run: `{ text, bold, italic, underline, color }` (`src/main.js:197`). -/
structure Run where
  text : Str
  bold : Bool
  italic : Bool
  underline : Bool
  color : Str
deriving DecidableEq

/-- A style descriptor as held in `TextControl.currentStyle`
(`src/main.js:933`): `{ bold, italic, underline, color }`. -/
structure Style where
  bold : Bool
  italic : Bool
  underline : Bool
  color : Str
deriving DecidableEq

/-- The default run color `"#111"` used by the `TextModel` constructor,
`setText` and `insertAt` (`src/main.js:198,205,272`). -/
def defaultColor : Str := "#111".toList

/-- The rich-text buffer `TextModel` (`src/main.js:195`): the run sequence,
the cached flattened text, and the monotone version counter. -/
structure TextModel where
  runs : List Run
  text : Str
  _version : Nat
deriving DecidableEq

/-- Concatenation of the `text` fields of a run list, in order. -/
def concatRuns : List Run → Str
  | [] => []
  | r :: rs => r.text ++ concatRuns rs

/-- `new TextModel(text)` (`src/main.js:196`): a single default-style run. -/
def TextModel.new (t : Str) : TextModel :=
  { runs := [{ text := t, bold := false, italic := false, underline := false,
               color := defaultColor }]
    text := t
    _version := 0 }

/-- `TextModel._rebuildText` (`src/main.js:202`): recompute the flattened text
from the runs and bump the version counter. -/
def TextModel._rebuildText (m : TextModel) : TextModel :=
  { m with text := concatRuns m.runs, _version := m._version + 1 }

/-- `TextModel.setText` (`src/main.js:203`): replace all runs with one
default-style run and rebuild. -/
def TextModel.setText (m : TextModel) (s : Str) : TextModel :=
  TextModel._rebuildText
    { m with runs := [{ text := s, bold := false, italic := false,
                        underline := false, color := defaultColor }] }

/-- `TextModel._locate` (`src/main.js:213`): map an absolute offset to
`(runIndex, offsetWithinRun)`; scans for the first run whose end is at or
past the offset.  The fallback for an empty run list yields run index `-1`
(JS `this.runs.length-1` with optional chaining), hence the `Int` index. -/
def locate : List Run → Nat → Int × Nat
  | [], _ => (-1, 0)
  | [r], index =>
    if index ≤ r.text.length then (0, index) else (0, r.text.length)
  | r :: r2 :: rs, index =>
    if index ≤ r.text.length then (0, index)
    else
      let p := locate (r2 :: rs) (index - r.text.length)
      (p.1 + 1, p.2)

/-- The clamp `Math.max(0, Math.min(index, len))` used by `_splitAt`,
`insertAt`, `deleteRange`, `applyStyle` and `getRunsInRange`. -/
def clampI (i : Int) (len : Nat) : Nat := (max 0 (min i (len : Int))).toNat

/-- `TextModel._splitAt` (`src/main.js:227`): force a run boundary at the
clamped offset, splitting the covering run if the offset falls strictly
inside it; returns the index of the run now starting there together with the
updated model (JS mutates `this.runs` in place). -/
def TextModel._splitAt (m : TextModel) (index : Int) : Nat × TextModel :=
  let idx := clampI index m.text.length
  let p := locate m.runs idx
  if h : 0 ≤ p.1 ∧ p.1.toNat < m.runs.length then
    let run := m.runs.get ⟨p.1.toNat, h.2⟩
    if p.2 = 0 then (p.1.toNat, m)
    else if p.2 = run.text.length then (p.1.toNat + 1, m)
    else
      let left : Run := { run with text := run.text.take p.2 }
      let right : Run := { run with text := run.text.drop p.2 }
      (p.1.toNat + 1,
       { m with runs := m.runs.take p.1.toNat ++ [left, right]
                          ++ m.runs.drop (p.1.toNat + 1) })
  else (0, m)

/-- Whether two runs carry exactly the same style, as compared by
`_mergeAdjacent` (`src/main.js:253`): `bold`, `italic`, `underline`, `color`
all equal. -/
def sameStyle (a b : Run) : Bool :=
  a.bold == b.bold && a.italic == b.italic && a.underline == b.underline
    && a.color == b.color

/-- One iteration of the `_mergeAdjacent` loop (`src/main.js:249`): append the
next run to the accumulator, merging it into the accumulator's last run when
the styles coincide. -/
def mergeStep (out : List Run) (r : Run) : List Run :=
  match out.getLast? with
  | some last =>
    if sameStyle last r then
      out.dropLast ++ [{ last with text := last.text ++ r.text }]
    else out ++ [r]
  | none => [r]

/-- The run list produced by `TextModel._mergeAdjacent` (`src/main.js:249`). -/
def mergeRuns (rs : List Run) : List Run := rs.foldl mergeStep []

/-- `TextModel._mergeAdjacent` (`src/main.js:249`). -/
def TextModel._mergeAdjacent (m : TextModel) : TextModel :=
  { m with runs := mergeRuns m.runs }

/-- `TextModel.insertAt` (`src/main.js:265`): no-op on the empty string, else
clamp, split a boundary, splice in a run carrying `style` (with the `"#111"`
fallback for a falsy color), merge and rebuild. -/
def TextModel.insertAt (m : TextModel) (index : Int) (s : Str) (style : Style) :
    TextModel :=
  if s = [] then m
  else
    let idx := clampI index m.text.length
    let p := m._splitAt (idx : Int)
    let run : Run := { text := s, bold := style.bold, italic := style.italic,
                       underline := style.underline,
                       color := if style.color = [] then defaultColor
                                else style.color }
    let m2 := { p.2 with runs := p.2.runs.take p.1 ++ [run] ++ p.2.runs.drop p.1 }
    m2._mergeAdjacent._rebuildText

/-- The splice step of `deleteRange` (`src/main.js:290-293`): split both
boundaries of the already-normalized, clamped range and remove the covered
runs (`this.runs.splice(a, b-a)`). -/
def deleteSplice (m : TextModel) (s' e' : Nat) : TextModel :=
  let pa := m._splitAt (s' : Int)
  let pb := pa.2._splitAt (e' : Int)
  { pb.2 with
    runs := pb.2.runs.take pa.1 ++ pb.2.runs.drop (pa.1 + (pb.1 - pa.1)) }

/-- The clamped core of `deleteRange` (`src/main.js:287-296`): early return if
the clamped range is empty, else splice, merge and rebuild. -/
def TextModel.deleteCore (m : TextModel) (s' e' : Nat) : TextModel :=
  if e' ≤ s' then m
  else (deleteSplice m s' e')._mergeAdjacent._rebuildText

/-- `TextModel.deleteRange` (`src/main.js:280`): early return on `start = end`,
swap if reversed, clamp, then run the clamped core. -/
def TextModel.deleteRange (m : TextModel) (start stop : Int) : TextModel :=
  if start = stop then m
  else
    m.deleteCore
      (clampI (if start > stop then stop else start) m.text.length)
      (clampI (if start > stop then start else stop) m.text.length)

/-- A style update as performed by the `applyStyle` loop body
(`src/main.js:317`): toggle one boolean property, or set a property to a
given value.  (Toggling `color` — which in JS would degrade the field to a
boolean — is not reachable from the controller, whose `toggleStyle` only
toggles `bold`/`italic`/`underline`, and is not modelled.) -/
inductive StyleUpd where
  | toggleBold
  | toggleItalic
  | toggleUnderline
  | setBold (v : Bool)
  | setItalic (v : Bool)
  | setUnderline (v : Bool)
  | setColor (c : Str)
deriving DecidableEq

/-- Apply a style update to one run (`this.runs[i][prop] = ...`,
`src/main.js:317`). -/
def applyUpd : StyleUpd → Run → Run
  | .toggleBold, r => { r with bold := !r.bold }
  | .toggleItalic, r => { r with italic := !r.italic }
  | .toggleUnderline, r => { r with underline := !r.underline }
  | .setBold v, r => { r with bold := v }
  | .setItalic v, r => { r with italic := v }
  | .setUnderline v, r => { r with underline := v }
  | .setColor c, r => { r with color := c }

/-- The `for(let i=a;i<b;i++)` loop of `applyStyle` (`src/main.js:316`):
update the runs with indices in `[a, b)`. -/
def applyStyleRuns (u : StyleUpd) : Nat → Nat → List Run → List Run
  | _, _, [] => []
  | a, b, r :: rs =>
    (if a = 0 ∧ 0 < b then applyUpd u r else r)
      :: applyStyleRuns u (a - 1) (b - 1) rs

/-- The splitting/updating step of `applyStyle` (`src/main.js:314-319`):
split both boundaries of the normalized, clamped range and update the
covered runs. -/
def styleSplice (m : TextModel) (s' e' : Nat) (u : StyleUpd) : TextModel :=
  let pa := m._splitAt (s' : Int)
  let pb := pa.2._splitAt (e' : Int)
  { pb.2 with runs := applyStyleRuns u pa.1 pb.1 pb.2.runs }

/-- `TextModel.applyStyle` (`src/main.js:306`): early return on
`start = end`, swap if reversed, clamp, split both boundaries, update the
covered runs, merge and rebuild.  Unlike `deleteRange` there is no second
emptiness check after clamping. -/
def TextModel.applyStyle (m : TextModel) (start stop : Int) (u : StyleUpd) :
    TextModel :=
  if start = stop then m
  else (styleSplice m
          (clampI (if start > stop then stop else start) m.text.length)
          (clampI (if start > stop then start else stop) m.text.length)
          u)._mergeAdjacent._rebuildText

/-- `TextModel.getRunsInRange` (`src/main.js:325`): clamp, split both
boundaries — thereby mutating `this.runs` — and return the shallow copies of
the runs between the two boundary indices together with the (mutated) model.
A JS shallow copy `{...r}` of a run is the run itself in this value model. -/
def TextModel.getRunsInRange (m : TextModel) (start stop : Int) :
    List Run × TextModel :=
  let s' := clampI start m.text.length
  let e' := clampI stop m.text.length
  let pa := m._splitAt (s' : Int)
  let pb := pa.2._splitAt (e' : Int)
  ((pb.2.runs.drop pa.1).take (pb.1 - pa.1), pb.2)

/-- The buffer mutations named by the invariants (`setText`, `insertAt`,
`deleteRange`, `applyStyle`). -/
inductive TMOp where
  | setText (s : Str)
  | insertAt (i : Int) (s : Str) (st : Style)
  | deleteRange (a b : Int)
  | applyStyle (a b : Int) (u : StyleUpd)

/-- Apply one buffer mutation. -/
def TMOp.apply (m : TextModel) : TMOp → TextModel
  | .setText s => m.setText s
  | .insertAt i s st => m.insertAt i s st
  | .deleteRange a b => m.deleteRange a b
  | .applyStyle a b u => m.applyStyle a b u

/-- Apply a sequence of buffer mutations, oldest first. -/
def TMOp.applyAll (m : TextModel) (ops : List TMOp) : TextModel :=
  ops.foldl TMOp.apply m

/-- The flattened-text invariant: the cached `text` equals the concatenation
of the run texts. -/
def TextModel.wf (m : TextModel) : Prop := m.text = concatRuns m.runs

/-- No two adjacent runs share an identical style. -/
def noAdjacentSameStyle (rs : List Run) : Prop :=
  List.Chain' (fun a b => sameStyle a b = false) rs

instance : DecidablePred TextModel.wf := fun m =>
  inferInstanceAs (Decidable (m.text = concatRuns m.runs))

instance (rs : List Run) : Decidable (noAdjacentSameStyle rs) :=
  inferInstanceAs (Decidable (List.Chain' _ rs))

/-! ## Basic lemmas about run concatenation and merging -/

theorem concatRuns_append (a b : List Run) :
    concatRuns (a ++ b) = concatRuns a ++ concatRuns b := by
  induction a with
  | nil => rfl
  | cons r rs ih => simp [concatRuns, ih]

/-- One merge step extends the accumulated concatenation by the new run's
text. -/
theorem concatRuns_mergeStep (out : List Run) (r : Run) :
    concatRuns (mergeStep out r) = concatRuns out ++ r.text := by
  unfold mergeStep
  rcases h : out.getLast? with _ | last
  · simp at h
    subst h
    simp [concatRuns]
  · obtain ⟨ys, rfl⟩ := List.getLast?_eq_some_iff.mp h
    by_cases hs : sameStyle last r
    · simp [hs, concatRuns_append, concatRuns, List.dropLast_concat]
    · simp [hs, concatRuns_append, concatRuns]

theorem concatRuns_foldl_mergeStep (rs : List Run) (acc : List Run) :
    concatRuns (rs.foldl mergeStep acc) = concatRuns acc ++ concatRuns rs := by
  induction rs generalizing acc with
  | nil => simp [concatRuns]
  | cons r rs ih =>
    simp only [List.foldl_cons, ih, concatRuns_mergeStep, concatRuns,
      List.append_assoc]

/-- Merging adjacent equal-style runs preserves the concatenated text. -/
theorem concatRuns_mergeRuns (rs : List Run) :
    concatRuns (mergeRuns rs) = concatRuns rs := by
  simpa [concatRuns] using concatRuns_foldl_mergeStep rs []


/-- Replacing the text of a run does not change how its style compares. -/
theorem sameStyle_text_update (x last : Run) (t : Str) :
    sameStyle x { last with text := t } = sameStyle x last := rfl

/-- One merge step preserves the no-adjacent-equal-styles property. -/
theorem noAdj_mergeStep (out : List Run) (r : Run)
    (h : noAdjacentSameStyle out) : noAdjacentSameStyle (mergeStep out r) := by
  unfold mergeStep
  rcases hl : out.getLast? with _ | last
  · simp [noAdjacentSameStyle]
  · obtain ⟨ys, rfl⟩ := List.getLast?_eq_some_iff.mp hl
    by_cases hs : sameStyle last r
    · simp only [hs, if_true, List.dropLast_concat]
      rw [noAdjacentSameStyle, List.chain'_append] at h ⊢
      refine ⟨h.1, List.chain'_singleton _, ?_⟩
      intro x hx y hy
      simp only [List.head?_cons, Option.mem_def, Option.some.injEq] at hy
      subst hy
      rw [sameStyle_text_update]
      exact h.2.2 x hx last (by simp)
    · have hs' : sameStyle last r = false := by simpa using hs
      simp only [hs', Bool.false_eq_true, if_false]
      rw [noAdjacentSameStyle, List.chain'_append]
      refine ⟨h, List.chain'_singleton _, ?_⟩
      intro x hx y hy
      simp only [List.getLast?_concat, Option.mem_def, Option.some.injEq] at hx
      simp only [List.head?_cons, Option.mem_def, Option.some.injEq] at hy
      subst hx; subst hy
      exact hs'

theorem noAdj_foldl_mergeStep (rs acc : List Run)
    (h : noAdjacentSameStyle acc) :
    noAdjacentSameStyle (rs.foldl mergeStep acc) := by
  induction rs generalizing acc with
  | nil => exact h
  | cons r rs ih => exact ih _ (noAdj_mergeStep _ _ h)

/-- `_mergeAdjacent`'s postcondition: its output has no two adjacent runs of
identical style. -/
theorem noAdj_mergeRuns (rs : List Run) :
    noAdjacentSameStyle (mergeRuns rs) :=
  noAdj_foldl_mergeStep rs [] (by simp [noAdjacentSameStyle])

/-! ## Each mutation either returns the model unchanged or ends in
`_mergeAdjacent` followed by `_rebuildText` -/

theorem insertAt_eq_or (m : TextModel) (i : Int) (s : Str) (st : Style) :
    m.insertAt i s st = m ∨
    ∃ m2 : TextModel, m.insertAt i s st = m2._mergeAdjacent._rebuildText := by
  rw [TextModel.insertAt]
  split
  · exact Or.inl rfl
  · exact Or.inr ⟨_, rfl⟩

theorem deleteCore_eq_or (m : TextModel) (s' e' : Nat) :
    m.deleteCore s' e' = m ∨
    ∃ m2 : TextModel, m.deleteCore s' e' = m2._mergeAdjacent._rebuildText := by
  rw [TextModel.deleteCore]
  split
  · exact Or.inl rfl
  · exact Or.inr ⟨_, rfl⟩

theorem deleteRange_eq_or (m : TextModel) (a b : Int) :
    m.deleteRange a b = m ∨
    ∃ m2 : TextModel, m.deleteRange a b = m2._mergeAdjacent._rebuildText := by
  rw [TextModel.deleteRange]
  split
  · exact Or.inl rfl
  · exact deleteCore_eq_or m _ _

theorem applyStyle_eq_or (m : TextModel) (a b : Int) (u : StyleUpd) :
    m.applyStyle a b u = m ∨
    ∃ m2 : TextModel, m.applyStyle a b u = m2._mergeAdjacent._rebuildText := by
  rw [TextModel.applyStyle]
  split
  · exact Or.inl rfl
  · exact Or.inr ⟨_, rfl⟩

/-! ## Preservation of the two buffer invariants by every mutation -/

theorem wf_merge_rebuild (m : TextModel) : m._mergeAdjacent._rebuildText.wf :=
  rfl

theorem wf_new (t : Str) : (TextModel.new t).wf := by
  simp [TextModel.wf, TextModel.new, concatRuns]

theorem wf_apply (m : TextModel) (op : TMOp) (h : m.wf) : (op.apply m).wf := by
  cases op with
  | setText s => exact rfl
  | insertAt i s st =>
    rcases insertAt_eq_or m i s st with he | ⟨m2, he⟩ <;> rw [TMOp.apply, he]
    · exact h
    · exact wf_merge_rebuild m2
  | deleteRange a b =>
    rcases deleteRange_eq_or m a b with he | ⟨m2, he⟩ <;> rw [TMOp.apply, he]
    · exact h
    · exact wf_merge_rebuild m2
  | applyStyle a b u =>
    rcases applyStyle_eq_or m a b u with he | ⟨m2, he⟩ <;> rw [TMOp.apply, he]
    · exact h
    · exact wf_merge_rebuild m2

theorem wf_applyAll (m : TextModel) (ops : List TMOp) (h : m.wf) :
    (TMOp.applyAll m ops).wf := by
  induction ops generalizing m with
  | nil => exact h
  | cons op ops ih => exact ih _ (wf_apply m op h)

theorem noAdj_merge_rebuild (m : TextModel) :
    noAdjacentSameStyle m._mergeAdjacent._rebuildText.runs :=
  noAdj_mergeRuns m.runs

theorem noAdj_apply (m : TextModel) (op : TMOp)
    (h : noAdjacentSameStyle m.runs) :
    noAdjacentSameStyle (op.apply m).runs := by
  cases op with
  | setText s =>
    simp [TMOp.apply, TextModel.setText, TextModel._rebuildText,
      noAdjacentSameStyle]
  | insertAt i s st =>
    rcases insertAt_eq_or m i s st with he | ⟨m2, he⟩ <;> rw [TMOp.apply, he]
    · exact h
    · exact noAdj_merge_rebuild m2
  | deleteRange a b =>
    rcases deleteRange_eq_or m a b with he | ⟨m2, he⟩ <;> rw [TMOp.apply, he]
    · exact h
    · exact noAdj_merge_rebuild m2
  | applyStyle a b u =>
    rcases applyStyle_eq_or m a b u with he | ⟨m2, he⟩ <;> rw [TMOp.apply, he]
    · exact h
    · exact noAdj_merge_rebuild m2

theorem noAdj_applyAll (m : TextModel) (ops : List TMOp)
    (h : noAdjacentSameStyle m.runs) :
    noAdjacentSameStyle (TMOp.applyAll m ops).runs := by
  induction ops generalizing m with
  | nil => exact h
  | cons op ops ih => exact ih _ (noAdj_apply m op h)

/-! ## Claims C1 and C2 -/

/-- **C1.** For every sequence of `TextModel` operations `setText`,
`insertAt`, `deleteRange`, `applyStyle` applied to a buffer, after each
operation the concatenation of the `text` fields of the runs, in order,
equals the buffer's flattened `text` (the string exposed to readers and to
the layout).  Quantifying over every operation sequence from a freshly
constructed buffer covers the state after each operation of any longer
sequence. -/
theorem c1_run_concat_eq_flattened_text (t : Str) (ops : List TMOp) :
    concatRuns (TMOp.applyAll (TextModel.new t) ops).runs
      = (TMOp.applyAll (TextModel.new t) ops).text :=
  (wf_applyAll (TextModel.new t) ops (wf_new t)).symm

/-- **C2.** After any buffer mutation (`insertAt`, `deleteRange`,
`applyStyle`, `setText`), no two adjacent runs in the buffer's run sequence
have identical style: for every pair of consecutive runs at least one of
`bold`, `italic`, `underline`, `color` differs. -/
theorem c2_no_adjacent_same_style (t : Str) (ops : List TMOp) :
    noAdjacentSameStyle (TMOp.applyAll (TextModel.new t) ops).runs :=
  noAdj_applyAll (TextModel.new t) ops (by
    simp [TextModel.new, noAdjacentSameStyle])

/-! ## Clamping lemmas -/

theorem clampI_le (i : Int) (len : Nat) : clampI i len ≤ len := by
  unfold clampI
  omega

theorem clampI_coe (n : Nat) (len : Nat) (h : n ≤ len) :
    clampI (n : Int) len = n := by
  unfold clampI
  omega

theorem clampI_idem (i : Int) (len : Nat) :
    clampI ((clampI i len : Nat) : Int) len = clampI i len :=
  clampI_coe _ _ (clampI_le i len)

@[simp] theorem concatRuns_nil : concatRuns [] = [] := rfl

@[simp] theorem concatRuns_cons (r : Run) (rs : List Run) :
    concatRuns (r :: rs) = r.text ++ concatRuns rs := rfl

/-! ## Specification of `_locate` and `_splitAt` -/

/-- On a nonempty run list and an in-range offset, `_locate` returns a valid
run index and an in-run offset that together split the concatenated text
exactly at the requested offset. -/
theorem locate_spec (rs : List Run) (idx : Nat) (hne : rs ≠ [])
    (hle : idx ≤ (concatRuns rs).length) :
    ∃ (i off : Nat) (r : Run),
      locate rs idx = ((i : Int), off) ∧
      rs.get? i = some r ∧
      off ≤ r.text.length ∧
      concatRuns (rs.take i) ++ r.text.take off = (concatRuns rs).take idx ∧
      r.text.drop off ++ concatRuns (rs.drop (i + 1))
        = (concatRuns rs).drop idx := by
  induction rs generalizing idx with
  | nil => exact absurd rfl hne
  | cons r rs ih =>
    by_cases hidx : idx ≤ r.text.length
    · refine ⟨0, idx, r, ?_, rfl, hidx, ?_, ?_⟩
      · cases rs <;> simp [locate, hidx]
      · simp [List.take_append_of_le_length hidx]
      · simp [List.drop_append_of_le_length hidx]
    · push_neg at hidx
      cases rs with
      | nil =>
        exfalso
        simp only [concatRuns_cons, concatRuns_nil, List.append_nil] at hle
        omega
      | cons r2 rs2 =>
        have hle' : idx - r.text.length ≤ (concatRuns (r2 :: rs2)).length := by
          simp only [concatRuns_cons, List.length_append] at hle ⊢
          omega
        obtain ⟨i, off, rr, hloc, hget, hoff, htake, hdrop⟩ :=
          ih (idx - r.text.length) (by simp) hle'
        refine ⟨i + 1, off, rr, ?_, hget, hoff, ?_, ?_⟩
        · rw [locate, if_neg (by omega)]
          simp only [hloc]
          norm_cast
        · have h1 : (concatRuns (r :: r2 :: rs2)).take idx
              = r.text ++ (concatRuns (r2 :: rs2)).take (idx - r.text.length) := by
            rw [concatRuns_cons, List.take_append_eq_append_take,
              List.take_of_length_le (by omega)]
          rw [h1, ← htake]
          simp [List.take_succ_cons, List.append_assoc]
        · have h1 : (concatRuns (r :: r2 :: rs2)).drop idx
              = (concatRuns (r2 :: rs2)).drop (idx - r.text.length) := by
            rw [concatRuns_cons, List.drop_append_eq_append_drop,
              List.drop_eq_nil_of_le (by omega)]
            simp
          rw [h1, ← hdrop]
          simp [List.drop_succ_cons]

/-- `_splitAt` never changes the flattened text or the version counter. -/
theorem splitAt_text_version (m : TextModel) (i : Int) :
    (m._splitAt i).2.text = m.text ∧ (m._splitAt i).2._version = m._version := by
  simp only [TextModel._splitAt]
  split
  · split
    · exact ⟨rfl, rfl⟩
    · split
      · exact ⟨rfl, rfl⟩
      · exact ⟨rfl, rfl⟩
  · exact ⟨rfl, rfl⟩

/-- `_splitAt` preserves the concatenation of the run texts. -/
theorem splitAt_concat (m : TextModel) (i : Int) :
    concatRuns (m._splitAt i).2.runs = concatRuns m.runs := by
  simp only [TextModel._splitAt]
  split
  · rename_i h
    split
    · rfl
    · split
      · rfl
      · have hlt : ((locate m.runs (clampI i m.text.length)).1).toNat
            < m.runs.length := h.2
        conv_rhs => rw [← List.take_append_drop
          ((locate m.runs (clampI i m.text.length)).1).toNat m.runs,
          List.drop_eq_getElem_cons hlt]
        simp only [concatRuns_append, concatRuns_cons]
        rw [← List.take_append_drop (locate m.runs (clampI i m.text.length)).2
          (m.runs.get ⟨_, hlt⟩).text]
        simp [List.append_assoc]
  · rfl

/-- If a prefix of the run sequence concatenates to the corresponding prefix
of the text, the remaining runs concatenate to the remaining text. -/
theorem concat_drop_of_take (rs : List Run) (t : Str) (k j : Nat)
    (htot : concatRuns rs = t)
    (h1 : concatRuns (rs.take k) = t.take j) :
    concatRuns (rs.drop k) = t.drop j := by
  have h2 : concatRuns (rs.take k) ++ concatRuns (rs.drop k)
      = t.take j ++ t.drop j := by
    rw [← concatRuns_append, List.take_append_drop, htot, List.take_append_drop]
  rw [h1] at h2
  exact List.append_cancel_left h2

/-- The boundary returned by `_splitAt` splits the run sequence exactly at
the clamped offset: the runs before the returned index concatenate to the
prefix of the flattened text up to the offset, and the runs from the index on
concatenate to the suffix. -/
theorem splitAt_spec (m : TextModel) (i : Int) (hwf : m.wf) :
    concatRuns ((m._splitAt i).2.runs.take (m._splitAt i).1)
      = m.text.take (clampI i m.text.length) ∧
    concatRuns ((m._splitAt i).2.runs.drop (m._splitAt i).1)
      = m.text.drop (clampI i m.text.length) := by
  have htot : concatRuns (m._splitAt i).2.runs = m.text :=
    (splitAt_concat m i).trans hwf.symm
  have h1 : concatRuns ((m._splitAt i).2.runs.take (m._splitAt i).1)
      = m.text.take (clampI i m.text.length) := by
    by_cases hrs : m.runs = []
    · have hsplit : m._splitAt i = (0, m) := by
        simp only [TextModel._splitAt, hrs, locate]
        rw [dif_neg (by simp)]
      have htext : m.text = [] := by rw [hwf, hrs]; rfl
      rw [hsplit]
      simp [hrs, htext]
    · have hle : clampI i m.text.length ≤ (concatRuns m.runs).length := by
        rw [← hwf]
        exact clampI_le i m.text.length
      obtain ⟨i', off, r, hloc, hget, hoff, htake, hdrop⟩ :=
        locate_spec m.runs (clampI i m.text.length) hrs hle
      obtain ⟨hlt, hgeteq⟩ := List.get?_eq_some.mp hget
      rw [← hwf] at htake
      by_cases hoff0 : off = 0
      · have hsplit : m._splitAt i = (i', m) := by
          simp only [TextModel._splitAt, hloc, Int.toNat_natCast]
          rw [dif_pos ⟨Int.natCast_nonneg i', hlt⟩]
          simp [hoff0]
        rw [hsplit]
        simpa [hoff0] using htake
      · by_cases hoffend : off = r.text.length
        · have hsplit : m._splitAt i = (i' + 1, m) := by
            simp only [TextModel._splitAt, hloc, Int.toNat_natCast]
            rw [dif_pos ⟨Int.natCast_nonneg i', hlt⟩]
            rw [if_neg hoff0, if_pos (by rw [hgeteq]; exact hoffend)]
          rw [hsplit]
          rw [List.get?_eq_getElem?] at hget
          rw [List.take_succ, hget, concatRuns_append, ← htake, hoffend,
            List.take_length]
          simp [concatRuns]
        · have hsplit : m._splitAt i
              = (i' + 1,
                 { m with runs := m.runs.take i'
                     ++ [{ r with text := r.text.take off },
                         { r with text := r.text.drop off }]
                     ++ m.runs.drop (i' + 1) }) := by
            simp only [TextModel._splitAt, hloc, Int.toNat_natCast]
            rw [dif_pos ⟨Int.natCast_nonneg i', hlt⟩]
            rw [if_neg hoff0, if_neg (by rw [hgeteq]; exact hoffend)]
            rw [hgeteq]
          have hlen : (m.runs.take i').length = i' := by
            simp [Nat.min_eq_left hlt.le]
          have hfst : (m._splitAt i).1 = i' + 1 := by rw [hsplit]
          have hruns : (m._splitAt i).2.runs
              = m.runs.take i'
                  ++ ([{ r with text := r.text.take off },
                       { r with text := r.text.drop off }]
                      ++ m.runs.drop (i' + 1)) := by
            rw [hsplit, List.append_assoc]
          rw [hfst, hruns]
          have hle2 : (m.runs.take i').length ≤ i' + 1 := by
            rw [hlen]
            omega
          rw [List.take_append_eq_append_take, hlen,
            List.take_of_length_le hle2]
          have hone : i' + 1 - i' = 1 := by omega
          rw [hone, List.take_append_of_le_length (by simp)]
          rw [← htake]
          simp [concatRuns_append, concatRuns]
  exact ⟨h1, concat_drop_of_take _ _ _ _ htot h1⟩

theorem merge_rebuild_text (m : TextModel) :
    m._mergeAdjacent._rebuildText.text = concatRuns m.runs := by
  simp [TextModel._mergeAdjacent, TextModel._rebuildText, concatRuns_mergeRuns]

theorem merge_rebuild_version (m : TextModel) :
    m._mergeAdjacent._rebuildText._version = m._version + 1 := rfl

theorem merge_rebuild_runs (m : TextModel) :
    m._mergeAdjacent._rebuildText.runs = mergeRuns m.runs := rfl

theorem clampI_zero (len : Nat) : clampI 0 len = 0 := by
  unfold clampI
  omega

/-- Splitting at offset `0` is a no-op returning run index `0`. -/
theorem splitAt_zero (m : TextModel) : m._splitAt 0 = (0, m) := by
  rcases hrs : m.runs with _ | ⟨r, rs⟩
  · simp only [TextModel._splitAt, hrs, clampI_zero, locate]
    rw [dif_neg (by simp)]
  · have hloc : locate (r :: rs) 0 = (0, 0) := by
      cases rs <;> simp [locate]
    simp only [TextModel._splitAt, hrs, clampI_zero, hloc]
    rw [dif_pos ⟨le_refl 0, by simp⟩]
    simp

/-- On the empty text, `insertAt` produces the general prefix/suffix shape. -/
theorem insertAt_text (m : TextModel) (i : Int) (s : Str) (st : Style)
    (hwf : m.wf) (hs : s ≠ []) :
    (m.insertAt i s st).text
      = m.text.take (clampI i m.text.length) ++ s
          ++ m.text.drop (clampI i m.text.length) := by
  obtain ⟨h1, h2⟩ := splitAt_spec m ((clampI i m.text.length : Nat) : Int) hwf
  rw [clampI_idem] at h1 h2
  rw [TextModel.insertAt, if_neg hs]
  simp only [merge_rebuild_text]
  rw [List.append_assoc, concatRuns_append, concatRuns_append, h1, h2]
  simp [concatRuns]

/-- `_splitAt` never creates a run with empty text when none existed: the two
halves of a strictly interior split are both nonempty. -/
theorem splitAt_runs_ne_nil (m : TextModel) (i : Int) (hwf : m.wf)
    (h : ∀ r ∈ m.runs, r.text ≠ []) :
    ∀ r ∈ (m._splitAt i).2.runs, r.text ≠ [] := by
  by_cases hrs : m.runs = []
  · have hsplit : m._splitAt i = (0, m) := by
      simp only [TextModel._splitAt, hrs, locate]
      rw [dif_neg (by simp)]
    rw [hsplit]
    exact h
  · have hle : clampI i m.text.length ≤ (concatRuns m.runs).length := by
      rw [← hwf]
      exact clampI_le i m.text.length
    obtain ⟨i', off, r, hloc, hget, hoff, htake, hdrop⟩ :=
      locate_spec m.runs (clampI i m.text.length) hrs hle
    obtain ⟨hlt, hgeteq⟩ := List.get?_eq_some.mp hget
    have hrmem : r ∈ m.runs := by
      rw [← hgeteq]
      exact List.get_mem m.runs i' hlt
    by_cases hoff0 : off = 0
    · have hsplit : m._splitAt i = (i', m) := by
        simp only [TextModel._splitAt, hloc, Int.toNat_natCast]
        rw [dif_pos ⟨Int.natCast_nonneg i', hlt⟩]
        simp [hoff0]
      rw [hsplit]
      exact h
    · by_cases hoffend : off = r.text.length
      · have hsplit : m._splitAt i = (i' + 1, m) := by
          simp only [TextModel._splitAt, hloc, Int.toNat_natCast]
          rw [dif_pos ⟨Int.natCast_nonneg i', hlt⟩]
          rw [if_neg hoff0, if_pos (by rw [hgeteq]; exact hoffend)]
        rw [hsplit]
        exact h
      · have hsplit : m._splitAt i
            = (i' + 1,
               { m with runs := m.runs.take i'
                   ++ [{ r with text := r.text.take off },
                       { r with text := r.text.drop off }]
                   ++ m.runs.drop (i' + 1) }) := by
          simp only [TextModel._splitAt, hloc, Int.toNat_natCast]
          rw [dif_pos ⟨Int.natCast_nonneg i', hlt⟩]
          rw [if_neg hoff0, if_neg (by rw [hgeteq]; exact hoffend)]
          rw [hgeteq]
        rw [hsplit]
        intro x hx
        simp only [List.mem_append, List.mem_cons, List.not_mem_nil,
          or_false] at hx
        rcases hx with (hx | hx | hx) | hx
        · exact h x (List.take_subset _ _ hx)
        · subst hx
          simp only
          intro hcon
          rcases List.take_eq_nil_iff.mp hcon with h0 | h0
          · exact hoff0 h0
          · exact h r hrmem h0
        · subst hx
          simp only
          intro hcon
          have := List.drop_eq_nil_iff.mp hcon
          omega
        · exact h x (List.drop_subset _ _ hx)

/-- A run list with empty concatenation and no empty-text runs is empty. -/
theorem eq_nil_of_concat_nil (rs : List Run) (hc : concatRuns rs = [])
    (h : ∀ r ∈ rs, r.text ≠ []) : rs = [] := by
  cases rs with
  | nil => rfl
  | cons r rs =>
    exfalso
    simp only [concatRuns_cons, List.append_eq_nil] at hc
    exact h r (by simp) hc.1

/-- Deleting the whole text `[0, length)` of a buffer with no empty-text runs
leaves an empty run array (and empty text). -/
theorem deleteRange_full (m : TextModel) (hwf : m.wf)
    (hn : 0 < m.text.length) (hne : ∀ r ∈ m.runs, r.text ≠ []) :
    (m.deleteRange 0 (m.text.length : Int)).runs = [] ∧
    (m.deleteRange 0 (m.text.length : Int)).text = [] := by
  have hne0 : (0 : Int) ≠ (m.text.length : Int) := by
    intro hcon
    omega
  rw [TextModel.deleteRange, if_neg hne0]
  rw [if_neg (by omega : ¬(0 : Int) > (m.text.length : Int)),
    if_neg (by omega : ¬(0 : Int) > (m.text.length : Int))]
  rw [clampI_zero, clampI_coe _ _ le_rfl]
  rw [TextModel.deleteCore, if_neg (by omega : ¬m.text.length ≤ 0)]
  have hsplice : deleteSplice m 0 m.text.length
      = { (m._splitAt (m.text.length : Int)).2 with
          runs := ((m._splitAt (m.text.length : Int)).2.runs.drop
                     (m._splitAt (m.text.length : Int)).1) } := by
    simp only [deleteSplice, Nat.cast_zero, splitAt_zero]
    simp
  rw [hsplice]
  obtain ⟨h1, h2⟩ := splitAt_spec m (m.text.length : Int) hwf
  rw [clampI_coe _ _ le_rfl] at h1 h2
  rw [List.drop_length] at h2
  have hzero : (m._splitAt (m.text.length : Int)).2.runs.drop
      (m._splitAt (m.text.length : Int)).1 = [] := by
    apply eq_nil_of_concat_nil _ h2
    intro r hr
    exact splitAt_runs_ne_nil m _ hwf hne r (List.drop_subset _ _ hr)
  constructor
  · rw [merge_rebuild_runs]
    simp [hzero, mergeRuns]
  · rw [merge_rebuild_text]
    simp [hzero]

/-! ## Claim C8 -/

/-- **C8 (corrected).** For every well-formed buffer and every string `s`:
`insertAt(0, s, style)` yields flattened text `s ++ old`;
`insertAt(length, s, style)` yields `old ++ s`; and `deleteRange(0, length)`
with `length > 0` (on a buffer with no empty-text runs, as produced by
`setText`/the constructor) leaves an *empty* run array — zero runs, not the
single empty run the original claim states — with empty flattened text. -/
theorem c8_insert_bounds_delete_all (m : TextModel) (s : Str) (st : Style)
    (hwf : m.wf) :
    (m.insertAt 0 s st).text = s ++ m.text ∧
    (m.insertAt (m.text.length : Int) s st).text = m.text ++ s ∧
    (0 < m.text.length → (∀ r ∈ m.runs, r.text ≠ []) →
      (m.deleteRange 0 (m.text.length : Int)).runs = [] ∧
      (m.deleteRange 0 (m.text.length : Int)).text = []) := by
  refine ⟨?_, ?_, fun hn hne => deleteRange_full m hwf hn hne⟩
  · by_cases hs : s = []
    · subst hs
      simp [TextModel.insertAt]
    · rw [insertAt_text m 0 s st hwf hs, clampI_zero]
      simp
  · by_cases hs : s = []
    · subst hs
      simp [TextModel.insertAt]
    · rw [insertAt_text m (m.text.length : Int) s st hwf hs,
        clampI_coe _ _ le_rfl]
      simp [List.take_length, List.drop_length]

/-- **C8 counterexample.** On the buffer `new TextModel("a")`, deleting
`[0, 1)` leaves zero runs, not "exactly one run whose text is the empty
string" as the claim states. -/
theorem c8_counterexample_delete_leaves_no_runs :
    ¬(((TextModel.new ['a']).deleteRange 0 1).runs.length = 1) := by
  decide

/-- **C8 witness.** The amended statement evaluated on the concrete buffer
`"ab"` and insertion `"xy"`. -/
theorem c8_witness :
    ((TextModel.new "ab".toList).insertAt 0 "xy".toList
        { bold := false, italic := false, underline := false,
          color := "#111".toList }).text
      = "xy".toList ++ "ab".toList ∧
    ((TextModel.new "ab".toList).insertAt (("ab".toList.length : Nat) : Int)
        "xy".toList
        { bold := false, italic := false, underline := false,
          color := "#111".toList }).text
      = "ab".toList ++ "xy".toList ∧
    (0 < "ab".toList.length → (∀ r ∈ (TextModel.new "ab".toList).runs, r.text ≠ []) →
      ((TextModel.new "ab".toList).deleteRange 0
          (("ab".toList.length : Nat) : Int)).runs = [] ∧
      ((TextModel.new "ab".toList).deleteRange 0
          (("ab".toList.length : Nat) : Int)).text = []) :=
  c8_insert_bounds_delete_all (TextModel.new "ab".toList) "xy".toList
    { bold := false, italic := false, underline := false,
      color := "#111".toList } (by decide)

/-! ## Claim C9: clamping and no-op behavior of the mutations -/

theorem clampI_ite_min (a b : Int) (len : Nat) :
    clampI (if a > b then b else a) len
      = min (clampI a len) (clampI b len) := by
  unfold clampI
  split <;> omega

theorem clampI_ite_max (a b : Int) (len : Nat) :
    clampI (if a > b then a else b) len
      = max (clampI a len) (clampI b len) := by
  unfold clampI
  split <;> omega

/-- `insertAt` with the empty string is exactly the identity. -/
theorem insertAt_nil (m : TextModel) (i : Int) (st : Style) :
    m.insertAt i [] st = m := by
  simp [TextModel.insertAt]

/-- `insertAt` acts as if its offset were clamped into `[0, length]`. -/
theorem insertAt_clamped (m : TextModel) (i : Int) (s : Str) (st : Style) :
    m.insertAt i s st
      = m.insertAt ((clampI i m.text.length : Nat) : Int) s st := by
  simp only [TextModel.insertAt, clampI_idem]

/-- `deleteRange` acts as if both offsets were clamped into `[0, length]`. -/
theorem deleteRange_clamped (m : TextModel) (a b : Int) :
    m.deleteRange a b
      = m.deleteRange ((clampI a m.text.length : Nat) : Int)
          ((clampI b m.text.length : Nat) : Int) := by
  by_cases hab : a = b
  · subst hab
    simp [TextModel.deleteRange]
  · by_cases hab' : clampI a m.text.length = clampI b m.text.length
    · simp only [TextModel.deleteRange]
      rw [if_neg hab,
        if_pos (show ((clampI a m.text.length : Nat) : Int)
            = ((clampI b m.text.length : Nat) : Int) by exact_mod_cast hab')]
      rw [clampI_ite_min a b, clampI_ite_max a b]
      rw [TextModel.deleteCore, if_pos (by omega)]
    · simp only [TextModel.deleteRange]
      rw [if_neg hab,
        if_neg (show ((clampI a m.text.length : Nat) : Int)
            ≠ ((clampI b m.text.length : Nat) : Int) by exact_mod_cast hab')]
      rw [clampI_ite_min a b, clampI_ite_max a b,
        clampI_ite_min ((clampI a m.text.length : Nat) : Int)
          ((clampI b m.text.length : Nat) : Int),
        clampI_ite_max ((clampI a m.text.length : Nat) : Int)
          ((clampI b m.text.length : Nat) : Int),
        clampI_coe _ _ (clampI_le a m.text.length),
        clampI_coe _ _ (clampI_le b m.text.length)]

/-- A delete range that clamps to an empty range is a silent no-op. -/
theorem deleteRange_noop (m : TextModel) (a b : Int)
    (h : clampI a m.text.length = clampI b m.text.length) :
    m.deleteRange a b = m := by
  by_cases hab : a = b
  · subst hab
    simp [TextModel.deleteRange]
  · rw [TextModel.deleteRange, if_neg hab]
    rw [clampI_ite_min a b, clampI_ite_max a b]
    rw [TextModel.deleteCore, if_pos (by omega)]

/-- A style update never changes the run's text. -/
theorem applyUpd_text (u : StyleUpd) (r : Run) : (applyUpd u r).text = r.text := by
  cases u <;> rfl

/-- The `applyStyle` loop preserves the concatenation of run texts. -/
theorem concat_applyStyleRuns (u : StyleUpd) (a b : Nat) (rs : List Run) :
    concatRuns (applyStyleRuns u a b rs) = concatRuns rs := by
  induction rs generalizing a b with
  | nil => rfl
  | cons r rs ih =>
    rw [applyStyleRuns, concatRuns_cons, concatRuns_cons, ih]
    split
    · rw [applyUpd_text]
    · rfl

/-- `applyStyle` with `start = end` is exactly the identity. -/
theorem applyStyle_same (m : TextModel) (a : Int) (u : StyleUpd) :
    m.applyStyle a a u = m := by
  simp [TextModel.applyStyle]

/-- `applyStyle` with `start ≠ end` always rebuilds: the flattened text is
unchanged but the version counter is bumped — even when the clamped range is
empty. -/
theorem applyStyle_ne (m : TextModel) (a b : Int) (u : StyleUpd)
    (hwf : m.wf) (hab : a ≠ b) :
    (m.applyStyle a b u).text = m.text ∧
    (m.applyStyle a b u)._version = m._version + 1 := by
  rw [TextModel.applyStyle, if_neg hab]
  constructor
  · rw [merge_rebuild_text]
    simp only [styleSplice]
    rw [concat_applyStyleRuns, splitAt_concat, splitAt_concat, ← hwf]
  · rw [merge_rebuild_version]
    simp only [styleSplice]
    exact congrArg (· + 1)
      ((splitAt_text_version _ _).2.trans (splitAt_text_version _ _).2)

/-- **C9 (corrected).** Out-of-range offsets are silently clamped into
`[0, length]` and no error is ever raised (all operations are total);
a zero-length insertion and an empty delete range are silently ignored,
leaving the model — runs, flattened text and version counter — exactly
unchanged.  However, contrary to the original claim, `applyStyle` with
`start ≠ end` whose clamped range is empty is *not* ignored: it leaves the
flattened text unchanged but still rebuilds and bumps the version counter
(only `start = end` is ignored). -/
theorem c9_clamp_and_noop (m : TextModel) (hwf : m.wf) :
    (∀ (i : Int) (st : Style), m.insertAt i [] st = m) ∧
    (∀ (i : Int) (s : Str) (st : Style),
      m.insertAt i s st
        = m.insertAt ((clampI i m.text.length : Nat) : Int) s st) ∧
    (∀ a b : Int,
      m.deleteRange a b
        = m.deleteRange ((clampI a m.text.length : Nat) : Int)
            ((clampI b m.text.length : Nat) : Int)) ∧
    (∀ a b : Int, clampI a m.text.length = clampI b m.text.length →
      m.deleteRange a b = m) ∧
    (∀ (a : Int) (u : StyleUpd), m.applyStyle a a u = m) ∧
    (∀ (a b : Int) (u : StyleUpd), a ≠ b →
      (m.applyStyle a b u).text = m.text ∧
      (m.applyStyle a b u)._version = m._version + 1) :=
  ⟨fun i st => insertAt_nil m i st,
   fun i s st => insertAt_clamped m i s st,
   fun a b => deleteRange_clamped m a b,
   fun a b h => deleteRange_noop m a b h,
   fun a u => applyStyle_same m a u,
   fun a b u hab => applyStyle_ne m a b u hwf hab⟩

/-- **C9 counterexample.** `applyStyle(5, 9, 'bold')` on the 3-character
buffer `"abc"` clamps to the empty range `[3, 3)` yet is not silently
ignored: it bumps the version counter, contradicting the claim that an empty
style range leaves the version counter unchanged. -/
theorem c9_counterexample_style_version_bump :
    ((TextModel.new "abc".toList).applyStyle 5 9 StyleUpd.toggleBold)._version
      ≠ (TextModel.new "abc".toList)._version := by
  decide

/-- **C9 witness.** The amended statement applied to the concrete buffer
`"ab"`, with each hypothesis discharged on concrete inputs. -/
theorem c9_witness :
    (TextModel.new "ab".toList).insertAt 99 []
        { bold := false, italic := false, underline := false,
          color := "#111".toList } = TextModel.new "ab".toList ∧
    (TextModel.new "ab".toList).deleteRange 5 9 = TextModel.new "ab".toList ∧
    ((TextModel.new "ab".toList).applyStyle 5 9 StyleUpd.toggleBold).text
      = (TextModel.new "ab".toList).text :=
  ⟨(c9_clamp_and_noop (TextModel.new "ab".toList) (by decide)).1 99 _,
   (c9_clamp_and_noop (TextModel.new "ab".toList) (by decide)).2.2.2.1 5 9
     (by decide),
   ((c9_clamp_and_noop (TextModel.new "ab".toList) (by decide)).2.2.2.2.2 5 9
     StyleUpd.toggleBold (by decide)).1⟩

/-! ## Claim C3: `getRunsInRange` -/

theorem concat_take_len_le (l : List Run) (n : Nat) :
    (concatRuns (l.take n)).length ≤ (concatRuns l).length := by
  conv_rhs => rw [← List.take_append_drop n l]
  rw [concatRuns_append, List.length_append]
  omega

/-- Case characterization of `_splitAt` on a well-formed model: either the
model is returned unchanged, or one run is split strictly inside, at the
clamped offset. -/
theorem splitAt_cases (m : TextModel) (i : Int) (hwf : m.wf) :
    (m._splitAt i).2 = m ∨
    ∃ (i' off : Nat) (r : Run) (hlt : i' < m.runs.length),
      m.runs.get ⟨i', hlt⟩ = r ∧ 0 < off ∧ off < r.text.length ∧
      concatRuns (m.runs.take i') ++ r.text.take off
        = m.text.take (clampI i m.text.length) ∧
      (m._splitAt i).2.runs
        = m.runs.take i'
            ++ [{ r with text := r.text.take off },
                { r with text := r.text.drop off }]
            ++ m.runs.drop (i' + 1) := by
  by_cases hrs : m.runs = []
  · left
    have hsplit : m._splitAt i = (0, m) := by
      simp only [TextModel._splitAt, hrs, locate]
      rw [dif_neg (by simp)]
    rw [hsplit]
  · have hle : clampI i m.text.length ≤ (concatRuns m.runs).length := by
      rw [← hwf]
      exact clampI_le i m.text.length
    obtain ⟨i', off, r, hloc, hget, hoff, htake, hdrop⟩ :=
      locate_spec m.runs (clampI i m.text.length) hrs hle
    obtain ⟨hlt, hgeteq⟩ := List.get?_eq_some.mp hget
    rw [← hwf] at htake
    by_cases hoff0 : off = 0
    · left
      have hsplit : m._splitAt i = (i', m) := by
        simp only [TextModel._splitAt, hloc, Int.toNat_natCast]
        rw [dif_pos ⟨Int.natCast_nonneg i', hlt⟩]
        simp [hoff0]
      rw [hsplit]
    · by_cases hoffend : off = r.text.length
      · left
        have hsplit : m._splitAt i = (i' + 1, m) := by
          simp only [TextModel._splitAt, hloc, Int.toNat_natCast]
          rw [dif_pos ⟨Int.natCast_nonneg i', hlt⟩]
          rw [if_neg hoff0, if_pos (by rw [hgeteq]; exact hoffend)]
        rw [hsplit]
      · right
        have hsplit : m._splitAt i
            = (i' + 1,
               { m with runs := m.runs.take i'
                   ++ [{ r with text := r.text.take off },
                       { r with text := r.text.drop off }]
                   ++ m.runs.drop (i' + 1) }) := by
          simp only [TextModel._splitAt, hloc, Int.toNat_natCast]
          rw [dif_pos ⟨Int.natCast_nonneg i', hlt⟩]
          rw [if_neg hoff0, if_neg (by rw [hgeteq]; exact hoffend)]
          rw [hgeteq]
        exact ⟨i', off, r, hlt, hgeteq, Nat.pos_of_ne_zero hoff0,
          lt_of_le_of_ne hoff hoffend, htake, by rw [hsplit]⟩

/-- A `_splitAt` whose clamped offset is at or past a prefix boundary leaves
the runs before that boundary untouched (as a concatenation). -/
theorem splitAt_take_stable (m : TextModel) (e : Int) (hwf : m.wf) (k j : Nat)
    (hck : concatRuns (m.runs.take k) = m.text.take j)
    (hj : j ≤ m.text.length)
    (hje : j ≤ clampI e m.text.length) :
    concatRuns ((m._splitAt e).2.runs.take k) = m.text.take j := by
  rcases splitAt_cases m e hwf with heq
    | ⟨i', off, r, hlt, hget, hoff0, hoffl, htake, hruns⟩
  · rw [heq]
    exact hck
  · rw [hruns]
    have hki : k ≤ i' := by
      by_contra hk
      push_neg at hk
      have hLoff := congrArg List.length htake
      rw [List.length_append, List.length_take, List.length_take,
        min_eq_left hoffl.le, min_eq_left (clampI_le e m.text.length)]
        at hLoff
      have hLK : (concatRuns (m.runs.take k)).length = j := by
        rw [hck, List.length_take, min_eq_left hj]
      have hget? : m.runs[i']? = some r := by
        rw [← List.get?_eq_getElem?]
        exact List.get?_eq_some.mpr ⟨hlt, hget⟩
      have hts : m.runs.take (i' + 1) = m.runs.take i' ++ [r] := by
        rw [List.take_succ, hget?]
        rfl
      have hsub : (concatRuns (m.runs.take (i' + 1))).length
          ≤ (concatRuns (m.runs.take k)).length := by
        have h1 : m.runs.take (i' + 1) = (m.runs.take k).take (i' + 1) := by
          rw [List.take_take, min_eq_left hk]
        rw [h1]
        exact concat_take_len_le _ _
      rw [hts, concatRuns_append] at hsub
      simp only [concatRuns_cons, concatRuns_nil, List.append_nil,
        List.length_append] at hsub
      omega
    rw [List.append_assoc, List.take_append_eq_append_take,
      List.take_take, min_eq_left hki]
    have hlen : (m.runs.take i').length = i' := by
      simp [min_eq_left hlt.le]
    rw [hlen, Nat.sub_eq_zero_of_le hki]
    simpa using hck

/-- **C3 (corrected).** `getRunsInRange(a, b)` returns cloned runs covering
exactly the clamped range `[a, b)` and leaves the flattened text, the version
counter, and the run concatenation unchanged — but, contrary to the original
claim, it is *not* free of mutation: its two `_splitAt` calls may split runs
at the range boundaries, changing the runs array itself. -/
theorem c3_getRunsInRange_frame (m : TextModel) (a b : Int) (hwf : m.wf) :
    (m.getRunsInRange a b).2.text = m.text ∧
    (m.getRunsInRange a b).2._version = m._version ∧
    concatRuns (m.getRunsInRange a b).2.runs = concatRuns m.runs ∧
    (clampI a m.text.length ≤ clampI b m.text.length →
      concatRuns (m.getRunsInRange a b).1
        = (m.text.drop (clampI a m.text.length)).take
            (clampI b m.text.length - clampI a m.text.length)) := by
  set s' := clampI a m.text.length with hs'def
  set e' := clampI b m.text.length with he'def
  set pa := m._splitAt (s' : Int) with hpa
  set pb := pa.2._splitAt (e' : Int) with hpb
  have hval : m.getRunsInRange a b
      = ((pb.2.runs.drop pa.1).take (pb.1 - pa.1), pb.2) := rfl
  rw [hval]
  have htext1 : pa.2.text = m.text := by
    rw [hpa]
    exact (splitAt_text_version _ _).1
  have htext2 : pb.2.text = pa.2.text := by
    rw [hpb]
    exact (splitAt_text_version _ _).1
  have hver1 : pa.2._version = m._version := by
    rw [hpa]
    exact (splitAt_text_version _ _).2
  have hver2 : pb.2._version = pa.2._version := by
    rw [hpb]
    exact (splitAt_text_version _ _).2
  have hcat1 : concatRuns pa.2.runs = concatRuns m.runs := by
    rw [hpa]
    exact splitAt_concat _ _
  have hcat2 : concatRuns pb.2.runs = concatRuns pa.2.runs := by
    rw [hpb]
    exact splitAt_concat _ _
  refine ⟨htext2.trans htext1, hver2.trans hver1, hcat2.trans hcat1, ?_⟩
  intro hse
  have hsle : s' ≤ m.text.length := clampI_le a m.text.length
  have hele : e' ≤ m.text.length := clampI_le b m.text.length
  have hwf1 : pa.2.wf := by
    rw [TextModel.wf, htext1, hcat1, ← hwf]
  have hsp1 := splitAt_spec m (s' : Int) hwf
  rw [clampI_coe _ _ hsle, ← hpa] at hsp1
  have hsp2 := splitAt_spec pa.2 (e' : Int) hwf1
  rw [htext1, clampI_coe _ _ hele, ← hpb] at hsp2
  have hstab : concatRuns (pb.2.runs.take pa.1) = m.text.take s' := by
    have := splitAt_take_stable pa.2 (e' : Int) hwf1 pa.1 s'
      (by rw [htext1]; exact hsp1.1)
      (by rw [htext1]; exact hsle)
      (by rw [htext1, clampI_coe _ _ hele]; exact hse)
    rw [← hpb, htext1] at this
    exact this
  have htot2 : concatRuns pb.2.runs = m.text := by
    rw [hcat2.trans hcat1, ← hwf]
  have hdropa : concatRuns (pb.2.runs.drop pa.1) = m.text.drop s' :=
    concat_drop_of_take _ _ _ _ htot2 hstab
  by_cases hba : pb.1 ≤ pa.1
  · rw [Nat.sub_eq_zero_of_le hba]
    have hlen1 : (concatRuns (pb.2.runs.take pa.1)).length = s' := by
      rw [hstab, List.length_take, min_eq_left hsle]
    have hlen2 : (concatRuns (pb.2.runs.take pb.1)).length = e' := by
      rw [hsp2.1, List.length_take, min_eq_left hele]
    have hle2 : e' ≤ s' := by
      have h := concat_take_len_le (pb.2.runs.take pa.1) pb.1
      rw [List.take_take, min_eq_left hba] at h
      omega
    have hz : e' - s' = 0 := by omega
    rw [hz]
    simp
  · push_neg at hba
    have hsplit2 : pb.2.runs.drop pa.1
        = (pb.2.runs.drop pa.1).take (pb.1 - pa.1)
            ++ pb.2.runs.drop pb.1 := by
      conv_lhs => rw [← List.take_append_drop (pb.1 - pa.1)
        (pb.2.runs.drop pa.1)]
      rw [List.drop_drop]
      congr 2
      omega
    have heq2 : concatRuns ((pb.2.runs.drop pa.1).take (pb.1 - pa.1))
        ++ m.text.drop e' = m.text.drop s' := by
      rw [← hsp2.2, ← hdropa]
      conv_rhs => rw [hsplit2]
      rw [concatRuns_append]
    have hdd : m.text.drop e' = (m.text.drop s').drop (e' - s') := by
      rw [List.drop_drop]
      congr 1
      omega
    rw [hdd] at heq2
    have hfin : concatRuns ((pb.2.runs.drop pa.1).take (pb.1 - pa.1))
        ++ (m.text.drop s').drop (e' - s')
        = (m.text.drop s').take (e' - s')
            ++ (m.text.drop s').drop (e' - s') := by
      rw [heq2, List.take_append_drop]
    exact List.append_cancel_right hfin

/-- **C3 counterexample.** On the fresh single-run buffer `"ab"`,
`getRunsInRange(1, 2)` splits the run and leaves a buffer with two runs: the
runs array is *not* identical before and after the call. -/
theorem c3_counterexample_runs_mutated :
    ¬(((TextModel.new "ab".toList).getRunsInRange 1 2).2.runs
        = (TextModel.new "ab".toList).runs) := by
  decide

/-- **C3 witness.** The amended statement applied to the concrete buffer
`"ab"` over the range `[1, 2)`. -/
theorem c3_witness :
    ((TextModel.new "ab".toList).getRunsInRange 1 2).2.text
        = (TextModel.new "ab".toList).text ∧
    ((TextModel.new "ab".toList).getRunsInRange 1 2).2._version
        = (TextModel.new "ab".toList)._version ∧
    concatRuns ((TextModel.new "ab".toList).getRunsInRange 1 2).2.runs
        = concatRuns (TextModel.new "ab".toList).runs ∧
    (clampI 1 (TextModel.new "ab".toList).text.length
        ≤ clampI 2 (TextModel.new "ab".toList).text.length →
      concatRuns ((TextModel.new "ab".toList).getRunsInRange 1 2).1
        = ((TextModel.new "ab".toList).text.drop
             (clampI 1 (TextModel.new "ab".toList).text.length)).take
            (clampI 2 (TextModel.new "ab".toList).text.length
             - clampI 1 (TextModel.new "ab".toList).text.length)) :=
  c3_getRunsInRange_frame (TextModel.new "ab".toList) 1 2 (by decide)

/-! ## The edit controller: selection, history, `typeText` -/

/-- `SelectionModel` (`src/main.js:340`): anchor/head caret pair.  `start`
and `stop` are the derived getters `start`/`end`; `empty` is the derived
equality test. -/
structure SelectionModel where
  anchor : Nat
  head : Nat
deriving DecidableEq

def SelectionModel.start (s : SelectionModel) : Nat := min s.anchor s.head

def SelectionModel.stop (s : SelectionModel) : Nat := max s.anchor s.head

def SelectionModel.empty (s : SelectionModel) : Bool := s.anchor == s.head

def SelectionModel.collapseTo (_ : SelectionModel) (pos : Nat) :
    SelectionModel :=
  { anchor := pos, head := pos }

def SelectionModel.setRange (_ : SelectionModel) (a b : Nat) :
    SelectionModel :=
  { anchor := a, head := b }

/-- A history entry (`TextControl.snapshot`, `src/main.js:1135`):
`{ text, sel: {a, h} }`. -/
structure Snapshot where
  text : Str
  a : Nat
  h : Nat
deriving DecidableEq

/-- The claim-relevant state of `TextControl` (`src/main.js:916`): the text
model, the selection, the bounded undo/redo stacks (most recent snapshot
first; JS `push`/`pop` at the array end become `cons`/head, JS `shift`
becomes `dropLast`), the history limit (set to 200 by the constructor and
never reassigned), and the current typing style.  Fields of the JS class
that no claim mentions and that the modelled operations only write, never
read (layout cache, scroll offsets, caret-blink state, `_preferredX`, IME
staging), are omitted. -/
structure TextControl where
  textModel : TextModel
  selection : SelectionModel
  _history : List Snapshot
  _redo : List Snapshot
  _historyLimit : Nat
  currentStyle : Style
deriving DecidableEq

/-- `TextControl.snapshot` (`src/main.js:1135`). -/
def TextControl.snapshot (c : TextControl) : Snapshot :=
  { text := c.textModel.text, a := c.selection.anchor,
    h := c.selection.head }

/-- `TextControl.restore` (`src/main.js:1136`): `setText` the snapshot text
and reinstate anchor/head. -/
def TextControl.restore (c : TextControl) (st : Snapshot) : TextControl :=
  { c with textModel := c.textModel.setText st.text,
           selection := { anchor := st.a, head := st.h } }

/-- `TextControl.pushHistory` (`src/main.js:1141`): push the snapshot, drop
the oldest entry if over the limit, clear the redo stack. -/
def TextControl.pushHistory (c : TextControl) : TextControl :=
  let h1 := c.snapshot :: c._history
  let h2 := if h1.length > c._historyLimit then h1.dropLast else h1
  { c with _history := h2, _redo := [] }

/-- `TextControl.undo` (`src/main.js:1147`): pop the last snapshot, push the
current state onto redo, restore the popped snapshot. -/
def TextControl.undo (c : TextControl) : TextControl :=
  match c._history with
  | [] => c
  | prev :: rest =>
    ({ c with _history := rest, _redo := c.snapshot :: c._redo }).restore prev

/-- `TextControl.redo` (`src/main.js:1154`): mirror of `undo`. -/
def TextControl.redo (c : TextControl) : TextControl :=
  match c._redo with
  | [] => c
  | next :: rest =>
    ({ c with _redo := rest,
              _history := c.snapshot :: c._history }).restore next

/-- `TextControl.typeText` (`src/main.js:1024`): push a history snapshot,
delete a non-empty selection and collapse it, insert at the caret with the
current typing style, collapse the caret after the insertion.  (The
remaining JS statements only refresh `_preferredX`, caret blink, scrolling
and the dirty flag — fields outside this model.) -/
def TextControl.typeText (c0 : TextControl) (s : Str) : TextControl :=
  let c := c0.pushHistory
  let c1 := if c.selection.empty then c
            else { c with
                   textModel := c.textModel.deleteRange
                     (c.selection.start : Int) (c.selection.stop : Int),
                   selection := c.selection.collapseTo c.selection.start }
  { c1 with
    textModel := c1.textModel.insertAt (c1.selection.start : Int) s
      c1.currentStyle,
    selection := c1.selection.collapseTo (c1.selection.start + s.length) }

theorem setText_text (m : TextModel) (s : Str) : (m.setText s).text = s := by
  simp [TextModel.setText, TextModel._rebuildText, concatRuns]

/-- `typeText` only changes model and selection beyond what `pushHistory`
does to the stacks. -/
theorem typeText_fields (c : TextControl) (s : Str) :
    (c.typeText s)._history = c.pushHistory._history ∧
    (c.typeText s)._redo = [] ∧
    (c.typeText s)._historyLimit = c._historyLimit := by
  simp only [TextControl.typeText]
  split <;> exact ⟨rfl, rfl, rfl⟩

/-- With a positive history limit, `pushHistory` leaves the fresh snapshot
on top of the history stack. -/
theorem pushHistory_snapshot_head (c : TextControl)
    (h : 0 < c._historyLimit) :
    ∃ t, c.pushHistory._history = c.snapshot :: t := by
  simp only [TextControl.pushHistory]
  split
  · rename_i hlen
    cases hh : c._history with
    | nil =>
      exfalso
      rw [hh] at hlen
      simp at hlen
      omega
    | cons a t0 =>
      refine ⟨(a :: t0).dropLast, ?_⟩
      rfl
  · exact ⟨c._history, rfl⟩

/-! ## Claim C7 -/

/-- **C7.** If three `typeText` calls are made in sequence from any starting
state (with the positive history limit the constructor always sets), then
one `undo()` restores exactly the buffer text and the selection (anchor and
head) that held after the first two edits, and a subsequent `redo()`
restores exactly the text and selection produced by the third edit; `undo`
pushes the pre-undo snapshot onto the redo stack and `redo` mirrors this by
pushing the pre-redo snapshot onto the history stack. -/
theorem c7_undo_redo_round_trip (c : TextControl) (s1 s2 s3 : Str)
    (hlim : 0 < c._historyLimit) :
    (((c.typeText s1).typeText s2).typeText s3).undo.textModel.text
        = ((c.typeText s1).typeText s2).textModel.text ∧
    (((c.typeText s1).typeText s2).typeText s3).undo.selection
        = ((c.typeText s1).typeText s2).selection ∧
    (((c.typeText s1).typeText s2).typeText s3).undo._redo
        = (((c.typeText s1).typeText s2).typeText s3).snapshot
            :: (((c.typeText s1).typeText s2).typeText s3)._redo ∧
    (((c.typeText s1).typeText s2).typeText s3).undo.redo.textModel.text
        = (((c.typeText s1).typeText s2).typeText s3).textModel.text ∧
    (((c.typeText s1).typeText s2).typeText s3).undo.redo.selection
        = (((c.typeText s1).typeText s2).typeText s3).selection ∧
    (((c.typeText s1).typeText s2).typeText s3).undo.redo._history
        = (((c.typeText s1).typeText s2).typeText s3).undo.snapshot
            :: (((c.typeText s1).typeText s2).typeText s3).undo._history := by
  set c2 := (c.typeText s1).typeText s2 with hc2
  set c3 := c2.typeText s3 with hc3
  have hlim2 : 0 < c2._historyLimit := by
    rw [hc2, (typeText_fields (c.typeText s1) s2).2.2,
      (typeText_fields c s1).2.2]
    exact hlim
  obtain ⟨t, ht⟩ := pushHistory_snapshot_head c2 hlim2
  have hh3 : c3._history = c2.snapshot :: t := by
    rw [hc3, (typeText_fields c2 s3).1, ht]
  have hu : c3.undo
      = ({ c3 with
            _history := t,
            _redo := c3.snapshot :: c3._redo }).restore c2.snapshot := by
    unfold TextControl.undo
    rw [hh3]
  have hur : c3.undo._redo = c3.snapshot :: c3._redo := by
    rw [hu]
    rfl
  have hr : c3.undo.redo
      = ({ c3.undo with
            _redo := c3._redo,
            _history := c3.undo.snapshot :: c3.undo._history }).restore
          c3.snapshot := by
    unfold TextControl.redo
    rw [hur]
  refine ⟨?_, ?_, hur, ?_, ?_, ?_⟩
  · rw [hu]
    simp [TextControl.restore, TextControl.snapshot, setText_text]
  · rw [hu]
    simp [TextControl.restore, TextControl.snapshot]
  · rw [hr]
    simp [TextControl.restore, TextControl.snapshot, setText_text]
  · rw [hr]
    simp [TextControl.restore, TextControl.snapshot]
  · rw [hr]
    rfl

/-- **C7 witness.** The round trip evaluated on a concrete fresh control
(history limit 200, as the constructor sets) and three concrete typed
strings. -/
theorem c7_witness :
    (((({ textModel := TextModel.new [],
          selection := { anchor := 0, head := 0 },
          _history := [], _redo := [], _historyLimit := 200,
          currentStyle := { bold := false, italic := false,
                            underline := false, color := "#111".toList } }
        : TextControl).typeText ['a']).typeText ['b']).typeText
          ['c']).undo.textModel.text
        = ((({ textModel := TextModel.new [],
               selection := { anchor := 0, head := 0 },
               _history := [], _redo := [], _historyLimit := 200,
               currentStyle := { bold := false, italic := false,
                                 underline := false, color := "#111".toList } }
             : TextControl).typeText ['a']).typeText ['b']).textModel.text :=
  (c7_undo_redo_round_trip
    { textModel := TextModel.new [],
      selection := { anchor := 0, head := 0 },
      _history := [], _redo := [], _historyLimit := 200,
      currentStyle := { bold := false, italic := false,
                        underline := false, color := "#111".toList } }
    ['a'] ['b'] ['c'] (by decide)).1

/-! ## Claim C10 -/

/-- **C10 (corrected).** `typeText(s)` pushes a history snapshot and clears
the redo stack unconditionally, before checking whether the edit changes
anything; with an *empty selection* (the caret case — e.g. an empty
clipboard paste at a caret) and `s = ""`, the buffer — text, runs and
version — and the selection are left entirely unchanged, yet the snapshot
sits on the undo stack and the redo stack has been emptied.  (With a
non-empty selection even `typeText("")` deletes the selection, so the
original unrestricted claim fails; see the counterexample.) -/
theorem c10_empty_typeText_pollutes_history (c : TextControl)
    (hlim : 0 < c._historyLimit)
    (hsel : c.selection.anchor = c.selection.head) :
    (∀ s : Str, (c.typeText s)._redo = [] ∧
      (c.typeText s)._history.head? = some c.snapshot) ∧
    (c.typeText []).textModel = c.textModel ∧
    (c.typeText []).selection = c.selection := by
  have hsel' : c.pushHistory.selection.empty = true := by
    simp [SelectionModel.empty, TextControl.pushHistory, hsel]
  refine ⟨?_, ?_, ?_⟩
  · intro s
    refine ⟨(typeText_fields c s).2.1, ?_⟩
    rw [(typeText_fields c s).1]
    obtain ⟨t, ht⟩ := pushHistory_snapshot_head c hlim
    rw [ht]
    rfl
  · show (c.typeText []).textModel = c.textModel
    simp only [TextControl.typeText, hsel', if_true]
    rw [insertAt_nil]
    rfl
  · show (c.typeText []).selection = c.selection
    simp only [TextControl.typeText, hsel', if_true]
    simp only [SelectionModel.collapseTo, SelectionModel.start,
      TextControl.pushHistory, hsel]
    have hgen : ∀ (x : SelectionModel), x.anchor = x.head →
        ({ anchor := x.head, head := x.head } : SelectionModel) = x := by
      intro x hx
      cases x
      simp_all
    simp only [Nat.add_zero, Nat.min_self]
    exact hgen c.selection hsel

/-- **C10 counterexample.** From a state with a non-empty selection,
`typeText("")` is *not* buffer-neutral: it deletes the selected text, so the
claim's "the buffer text, runs, and version are left unchanged" fails as
stated for an arbitrary starting state. -/
theorem c10_counterexample_selection_deleted :
    (({ textModel := TextModel.new ['a', 'b'],
        selection := { anchor := 0, head := 1 },
        _history := [], _redo := [], _historyLimit := 200,
        currentStyle := { bold := false, italic := false,
                          underline := false, color := "#111".toList } }
      : TextControl).typeText []).textModel.text
      ≠ (TextModel.new ['a', 'b']).text := by
  decide

/-- **C10 witness.** The amended statement on a concrete caret-only state. -/
theorem c10_witness :
    ((({ textModel := TextModel.new ['a', 'b'],
         selection := { anchor := 1, head := 1 },
         _history := [], _redo := [], _historyLimit := 200,
         currentStyle := { bold := false, italic := false,
                           underline := false, color := "#111".toList } }
       : TextControl).typeText []).textModel
        = ({ textModel := TextModel.new ['a', 'b'],
             selection := { anchor := 1, head := 1 },
             _history := [], _redo := [], _historyLimit := 200,
             currentStyle := { bold := false, italic := false,
                               underline := false, color := "#111".toList } }
           : TextControl).textModel) ∧
    ((({ textModel := TextModel.new ['a', 'b'],
         selection := { anchor := 1, head := 1 },
         _history := [], _redo := [], _historyLimit := 200,
         currentStyle := { bold := false, italic := false,
                           underline := false, color := "#111".toList } }
       : TextControl).typeText [])._redo = []) :=
  ⟨(c10_empty_typeText_pollutes_history _ (by decide) (by decide)).2.1,
   ((c10_empty_typeText_pollutes_history
      { textModel := TextModel.new ['a', 'b'],
        selection := { anchor := 1, head := 1 },
        _history := [], _redo := [], _historyLimit := 200,
        currentStyle := { bold := false, italic := false,
                          underline := false, color := "#111".toList } }
      (by decide) (by decide)).1 []).1⟩

/-! ## The layout engine (`TextLayout.ensure`, default style-unaware mode,
and `PaintCanvas.cutText`) -/

/-- The binary-search loop of `PaintCanvas.cutText` (`src/paint.js:153-164`):
maintains `lo` (fits) and `hi`, probing `mid = ⌊(lo+hi+1)/2⌋`.  The loop
runs while `lo < hi`; the fuel only bounds the iteration count and is
instantiated with `text.length`, which the halving search never exhausts. -/
def cutSearch (measure : Str → Nat) (width : Nat) (text : Str) :
    Nat → Nat → Nat → Nat
  | 0, lo, _ => lo
  | fuel + 1, lo, hi =>
    if lo < hi then
      if measure (text.take ((lo + hi + 1) / 2)) ≤ width then
        cutSearch measure width text fuel ((lo + hi + 1) / 2) hi
      else cutSearch measure width text fuel lo ((lo + hi + 1) / 2 - 1)
    else lo

/-- `PaintCanvas.cutText(text, width)` (`src/paint.js:144`): split `text`
into the largest measured prefix that fits `width` and the remainder;
`["", text]` when `width ≤ 0`, `[text, ""]` when everything fits. -/
def cutText (measure : Str → Nat) (text : Str) (width : Nat) : Str × Str :=
  if text = [] then ([], [])
  else if width = 0 then ([], text)
  else if measure text ≤ width then (text, [])
  else
    (text.take (cutSearch measure width text text.length 0 text.length),
     text.drop (cutSearch measure width text text.length 0 text.length))

/-- The JS regexp `/\s/` used for word-wrap boundaries
(`src/main.js:448,493`): ECMAScript whitespace code points. -/
def wsChar (c : Char) : Bool :=
  c.toNat = 0x20 || c.toNat = 0x09 || c.toNat = 0x0a || c.toNat = 0x0b
    || c.toNat = 0x0c || c.toNat = 0x0d || c.toNat = 0xa0
    || c.toNat = 0x1680 || (0x2000 ≤ c.toNat && c.toNat ≤ 0x200a)
    || c.toNat = 0x2028 || c.toNat = 0x2029 || c.toNat = 0x202f
    || c.toNat = 0x205f || c.toNat = 0x3000 || c.toNat = 0xfeff

/-- The backwards scan `for(let i = first.length-1; i >= 0; i--)` looking for
the last whitespace in a candidate line (`src/main.js:490-494`). -/
def lastWsIdx : Str → Option Nat
  | [] => none
  | c :: cs =>
    match lastWsIdx cs with
    | some i => some (i + 1)
    | none => if wsChar c then some 0 else none

/-- The hyphenation shrink loop (`src/main.js:508-511`): drop trailing
characters while `first + hyphenChar` does not fit, keeping at least one
character.  Fuel is instantiated with the candidate's length. -/
def shrinkHyph (measure : Str → Nat) (W : Nat) (hy : Char) :
    Nat → Str → Str
  | 0, f => f
  | fuel + 1, f =>
    if 1 < f.length ∧ W < measure (f ++ [hy]) then
      shrinkHyph measure W hy fuel f.dropLast
    else f

/-- `wordWrap: 'word' | 'char'` (`src/main.js:951`). -/
inductive WordWrapMode where
  | word
  | char
deriving DecidableEq

/-- The wrapping configuration consumed by the default layout path:
`wrap`, `wordWrap`, `hyphenate`, `hyphenChar` (`src/main.js:949-974`). -/
structure LayoutCfg where
  wrap : Bool
  wordWrap : WordWrapMode
  hyphenate : Bool
  hyphenChar : Char
deriving DecidableEq

/-- The paragraph-consuming `while(rest.length > 0)` loop of
`TextLayout.ensure` in the default style-unaware mode
(`src/main.js:482-523`), producing the emitted line texts in order:
take the largest fitting prefix (at least one character); in word mode,
if the paragraph is not exhausted, back off to the last whitespace
strictly after position 0, else hyphenate when enabled (appending the
hyphen character to the emitted line), else hard-cut.  Each iteration
consumes at least one character, so fuel `rest.length` suffices. -/
def layoutParaF (measure : Str → Nat) (W : Nat) (cfg : LayoutCfg) :
    Nat → Str → List Str
  | 0, _ => []
  | _ + 1, [] => []
  | fuel + 1, cc :: cs =>
    let first := (cutText measure (cc :: cs) W).1
    if first = [] then
      [cc] :: layoutParaF measure W cfg fuel cs
    else if cfg.wordWrap = WordWrapMode.word
        ∧ first.length < (cc :: cs).length then
      match lastWsIdx first with
      | some i =>
        if 0 < i then
          first.take (i + 1)
            :: layoutParaF measure W cfg fuel
                 (first.drop (i + 1) ++ (cc :: cs).drop first.length)
        else if cfg.hyphenate ∧ 1 < first.length then
          (shrinkHyph measure W cfg.hyphenChar first.length first
              ++ [cfg.hyphenChar])
            :: layoutParaF measure W cfg fuel
                 ((cc :: cs).drop
                   (shrinkHyph measure W cfg.hyphenChar first.length
                     first).length)
        else
          first :: layoutParaF measure W cfg fuel ((cc :: cs).drop first.length)
      | none =>
        if cfg.hyphenate ∧ 1 < first.length then
          (shrinkHyph measure W cfg.hyphenChar first.length first
              ++ [cfg.hyphenChar])
            :: layoutParaF measure W cfg fuel
                 ((cc :: cs).drop
                   (shrinkHyph measure W cfg.hyphenChar first.length
                     first).length)
        else
          first :: layoutParaF measure W cfg fuel ((cc :: cs).drop first.length)
    else
      first :: layoutParaF measure W cfg fuel ((cc :: cs).drop first.length)

/-- The line texts one paragraph contributes (`src/main.js:383-387,475-523`):
an empty paragraph yields one empty line; with `wrap === false` the
paragraph is a single line; otherwise the wrapping loop runs. -/
def paraTexts (measure : Str → Nat) (W : Nat) (cfg : LayoutCfg) (p : Str) :
    List Str :=
  if p = [] then [[]]
  else if cfg.wrap = false then [p]
  else layoutParaF measure W cfg p.length p

/-- A visual line `{ text, start, end }` (`src/main.js:359`); the JS field
`end` is called `stop` here (`end` is reserved in Lean). -/
structure Line where
  text : Str
  start : Nat
  stop : Nat
deriving DecidableEq

/-- Lines with absolute offsets for one paragraph's texts, threading the
running offset (`offset += text.length` per pushed line). -/
def mkLines : List Str → Nat → List Line × Nat
  | [], offset => ([], offset)
  | t :: ts, offset =>
    ({ text := t, start := offset, stop := offset + t.length }
        :: (mkLines ts (offset + t.length)).1,
     (mkLines ts (offset + t.length)).2)

/-- `lines[lines.length-1].end += 1` (`src/main.js:529`): account for the
explicit newline in the last emitted line's end offset. -/
def bumpLast : List Line → List Line
  | [] => []
  | [L] => [{ L with stop := L.stop + 1 }]
  | L :: L2 :: ls => L :: bumpLast (L2 :: ls)

/-- `model.text.split("\n")` (`src/main.js:380`). -/
def splitOnNl : Str → List Str
  | [] => [[]]
  | c :: cs =>
    if c = '\n' then [] :: splitOnNl cs
    else
      match splitOnNl cs with
      | [] => [[c]]
      | p :: ps => (c :: p) :: ps

/-- The paragraph loop of `ensure` (`src/main.js:382-532`): lines for each
paragraph in turn; after every paragraph except the last, the newline bumps
the last line's end offset and advances the running offset by one.  (The
bump targets this paragraph's own last line: every paragraph emits at least
one line.) -/
def linesOfParas (measure : Str → Nat) (W : Nat) (cfg : LayoutCfg) :
    List Str → Nat → List Line
  | [], _ => []
  | [p], offset => (mkLines (paraTexts measure W cfg p) offset).1
  | p :: p2 :: ps, offset =>
    bumpLast (mkLines (paraTexts measure W cfg p) offset).1
      ++ linesOfParas measure W cfg (p2 :: ps)
           ((mkLines (paraTexts measure W cfg p) offset).2 + 1)

/-- The full recomputation of the line table by `TextLayout.ensure`
(`src/main.js:378-532`, style-unaware mode). -/
def computeLines (measure : Str → Nat) (cfg : LayoutCfg) (W : Nat)
    (text : Str) : List Line :=
  linesOfParas measure W cfg (splitOnNl text) 0

/-- The layout cache `{ version, width, lines }` (`src/main.js:359`). -/
structure LayoutCache where
  version : Nat
  width : Nat
  lines : List Line
deriving DecidableEq

/-- `TextLayout.ensure` (`src/main.js:368`): return the cached line table if
the buffer version and the computed available width both match, else
recompute and replace the cache (the returned value is also the new cache). -/
def TextLayout.ensure (measure : Str → Nat) (cfg : LayoutCfg)
    (version W : Nat) (text : Str) (cache : Option LayoutCache) :
    LayoutCache :=
  match cache with
  | some c =>
    if c.version = version ∧ c.width = W then c
    else { version := version, width := W,
           lines := computeLines measure cfg W text }
  | none => { version := version, width := W,
              lines := computeLines measure cfg W text }

/-- Whether `ensure` takes the cache-hit early return
(`src/main.js:375`). -/
def TextLayout.ensureHit (cache : Option LayoutCache) (version W : Nat) :
    Bool :=
  match cache with
  | some c => c.version == version && c.width == W
  | none => false

def concatStrs : List Str → Str
  | [] => []
  | s :: l => s ++ concatStrs l

/-- The newline a line's end offset accounts for: one `'\n'` exactly when
`end` exceeds `start + text.length`. -/
def lineNl (L : Line) : Str :=
  if L.start + L.text.length < L.stop then ['\n'] else []

/-- Concatenation of the line texts with the implied newlines reinserted. -/
def concatWithNl : List Line → Str
  | [] => []
  | L :: ls => L.text ++ lineNl L ++ concatWithNl ls

/-- A line's offsets index exactly its text (plus the accounted newline)
inside the flattened text `F`. -/
def lineFits (F : Str) (L : Line) : Prop :=
  (F.drop L.start).take (L.stop - L.start) = L.text ++ lineNl L ∧
  (L.stop = L.start + L.text.length ∨ L.stop = L.start + L.text.length + 1)

/-- `paragraphs.join("\n")`: the inverse of `splitOnNl`. -/
def intercalateNl : List Str → Str
  | [] => []
  | [p] => p
  | p :: p2 :: ps => p ++ '\n' :: intercalateNl (p2 :: ps)

/-! ## Claims C5 and C6 -/

/-- **C5.** `ensure()` returns the previously cached `{version, width,
lines}` value unchanged exactly when the buffer's version counter and the
computed available width both equal the cached values (the `ensureHit`
condition), and otherwise recomputes the line table and replaces the cache;
in particular two consecutive `ensure()` calls with no intervening text or
width change return the same cached line table, the second being a cache
hit. -/
theorem c5_ensure_cache_contract (measure : Str → Nat) (cfg : LayoutCfg)
    (version W : Nat) (text : Str) :
    (∀ c : LayoutCache,
      TextLayout.ensure measure cfg version W text (some c)
        = if c.version = version ∧ c.width = W then c
          else { version := version, width := W,
                 lines := computeLines measure cfg W text }) ∧
    (TextLayout.ensure measure cfg version W text none
        = { version := version, width := W,
            lines := computeLines measure cfg W text }) ∧
    (∀ cache : Option LayoutCache,
      TextLayout.ensureHit cache version W = true
        ↔ ∃ c, cache = some c ∧ c.version = version ∧ c.width = W) ∧
    (∀ cache : Option LayoutCache,
      TextLayout.ensure measure cfg version W text
          (some (TextLayout.ensure measure cfg version W text cache))
        = TextLayout.ensure measure cfg version W text cache ∧
      TextLayout.ensureHit
          (some (TextLayout.ensure measure cfg version W text cache))
          version W = true) := by
  refine ⟨fun c => rfl, rfl, ?_, ?_⟩
  · intro cache
    cases cache with
    | none => simp [TextLayout.ensureHit]
    | some c =>
      simp [TextLayout.ensureHit]
  · intro cache
    have hres : ∀ r : LayoutCache,
        r = TextLayout.ensure measure cfg version W text cache →
        r.version = version ∧ r.width = W →
        TextLayout.ensure measure cfg version W text (some r) = r ∧
        TextLayout.ensureHit (some r) version W = true := by
      intro r _ hvw
      constructor
      · simp [TextLayout.ensure, hvw.1, hvw.2]
      · simp [TextLayout.ensureHit, hvw.1, hvw.2]
    cases cache with
    | none => exact hres _ rfl ⟨rfl, rfl⟩
    | some c =>
      by_cases hm : c.version = version ∧ c.width = W
      · have : TextLayout.ensure measure cfg version W text (some c) = c := by
          simp [TextLayout.ensure, hm]
        rw [this]
        exact hres c (by rw [this]) ⟨hm.1, hm.2⟩
      · have : TextLayout.ensure measure cfg version W text (some c)
            = { version := version, width := W,
                lines := computeLines measure cfg W text } := by
          simp [TextLayout.ensure, hm]
        rw [this]
        exact hres _ (by rw [this]) ⟨rfl, rfl⟩

/-- The wrapping configuration the `TextControl` constructor establishes
(`src/main.js:949-974`): `wrap = true`, `wordWrap = 'word'`,
`hyphenate = false`, `hyphenChar = '-'`. -/
def defaultWrapCfg : LayoutCfg :=
  { wrap := true, wordWrap := WordWrapMode.word, hyphenate := false,
    hyphenChar := '-' }

/-- **C6.** With wrap enabled and word-wrap mode active, under the
measurement function `length` with available width `5` (exactly 5 characters
fit), laying out the single-paragraph text `"ab cdefgh"` emits `"ab "` as
the first line (breaking at the trailing space), and the remainder
`"cdefgh"` is carried forward and wrapped on the subsequent lines. -/
theorem c6_word_wrap_scenario :
    ((computeLines List.length defaultWrapCfg 5 "ab cdefgh".toList).map
        Line.text).head? = some "ab ".toList ∧
    concatStrs (((computeLines List.length defaultWrapCfg 5
        "ab cdefgh".toList).map Line.text).tail) = "cdefgh".toList := by
  decide

/-- **C4 counterexample.** With `wordWrap='word'`, `hyphenate=true` and a
width fitting 3 characters, laying out `"abcdef"` emits the lines
`"ab-"`, `"cd-"`, `"ef"`: the appended hyphen characters are not part of the
buffer, so concatenating the line texts (no newlines here) gives
`"ab-cd-ef" ≠ "abcdef"` — the claimed reconstruction fails when hyphenation
fires. -/
theorem c4_counterexample_hyphen_breaks_reconstruction :
    concatWithNl (computeLines List.length
        { wrap := true, wordWrap := WordWrapMode.word, hyphenate := true,
          hyphenChar := '-' } 3 "abcdef".toList)
      ≠ "abcdef".toList := by
  decide

/-! ## Claim C4: reconstruction of the text from the layout -/

theorem cutSearch_bounds (measure : Str → Nat) (W : Nat) (text : Str)
    (fuel lo hi : Nat) (h : lo ≤ hi) :
    lo ≤ cutSearch measure W text fuel lo hi ∧
    cutSearch measure W text fuel lo hi ≤ hi := by
  induction fuel generalizing lo hi with
  | zero => exact ⟨le_refl lo, h⟩
  | succ fuel ih =>
    rw [cutSearch]
    split
    · rename_i hlt
      split
      · have h2 := ih ((lo + hi + 1) / 2) hi (by omega)
        exact ⟨le_trans (by omega) h2.1, h2.2⟩
      · have h2 := ih lo ((lo + hi + 1) / 2 - 1) (by omega)
        exact ⟨h2.1, le_trans h2.2 (by omega)⟩
    · exact ⟨le_refl lo, h⟩

/-- `cutText` splits its input: head ++ tail = text, the tail is the drop of
the head's length, and the head is no longer than the input. -/
theorem cutText_spec (measure : Str → Nat) (text : Str) (W : Nat) :
    (cutText measure text W).1 ++ (cutText measure text W).2 = text ∧
    (cutText measure text W).2
      = text.drop (cutText measure text W).1.length ∧
    (cutText measure text W).1.length ≤ text.length := by
  unfold cutText
  split
  · rename_i h
    subst h
    exact ⟨rfl, rfl, le_refl 0⟩
  · split
    · exact ⟨rfl, rfl, by simp⟩
    · split
      · refine ⟨by simp, ?_, le_refl _⟩
        rw [List.drop_length]
      · have hb := cutSearch_bounds measure W text text.length 0 text.length
          (Nat.zero_le _)
        refine ⟨List.take_append_drop _ _, ?_, ?_⟩
        · rw [List.length_take, min_eq_left hb.2]
        · rw [List.length_take]
          omega

theorem lastWsIdx_lt (l : Str) (i : Nat) (h : lastWsIdx l = some i) :
    i < l.length := by
  induction l generalizing i with
  | nil => simp [lastWsIdx] at h
  | cons c cs ih =>
    rw [lastWsIdx] at h
    rcases hw : lastWsIdx cs with _ | j
    · simp only [hw] at h
      split at h
      · simp only [Option.some.injEq] at h
        subst h
        simp
      · simp at h
    · simp only [hw] at h
      simp only [Option.some.injEq] at h
      subst h
      have := ih j hw
      simp only [List.length_cons]
      omega

/-- With hyphenation disabled, the emitted line texts of the wrapping loop
concatenate exactly to the paragraph. -/
theorem layoutParaF_concat (measure : Str → Nat) (W : Nat) (cfg : LayoutCfg)
    (hcfg : cfg.hyphenate = false) :
    ∀ (fuel : Nat) (rest : Str), rest.length ≤ fuel →
      concatStrs (layoutParaF measure W cfg fuel rest) = rest := by
  intro fuel
  induction fuel with
  | zero =>
    intro rest h
    cases rest with
    | nil => rfl
    | cons c cs => simp at h
  | succ fuel ih =>
    intro rest hlen
    cases rest with
    | nil => rfl
    | cons cc cs =>
      rw [layoutParaF]
      obtain ⟨hsplit, hdropeq, hlenle⟩ := cutText_spec measure (cc :: cs) W
      have hfd : (cutText measure (cc :: cs) W).1
          ++ (cc :: cs).drop (cutText measure (cc :: cs) W).1.length
          = cc :: cs := by
        rw [← hdropeq]
        exact hsplit
      by_cases hf : (cutText measure (cc :: cs) W).1 = []
      · rw [if_pos hf]
        rw [concatStrs, ih cs (by simp at hlen; omega)]
        rfl
      · rw [if_neg hf]
        have hpos : 0 < (cutText measure (cc :: cs) W).1.length :=
          List.length_pos.mpr hf
        have hstd : concatStrs ((cutText measure (cc :: cs) W).1
              :: layoutParaF measure W cfg fuel
                   ((cc :: cs).drop (cutText measure (cc :: cs) W).1.length))
            = cc :: cs := by
          rw [concatStrs, ih _ (by
            rw [List.length_drop]
            simp only [List.length_cons] at hlen ⊢
            omega)]
          exact hfd
        split
        · rename_i hww
          rcases hws : lastWsIdx (cutText measure (cc :: cs) W).1 with _ | i
          · simp only [hws]
            rw [if_neg (by simp [hcfg])]
            exact hstd
          · simp only [hws]
            have hilt := lastWsIdx_lt _ i hws
            by_cases hi : 0 < i
            · rw [if_pos hi]
              have hbnd : ((cutText measure (cc :: cs) W).1.drop (i + 1)
                    ++ (cc :: cs).drop
                         (cutText measure (cc :: cs) W).1.length).length
                  ≤ fuel := by
                rw [List.length_append, List.length_drop, List.length_drop]
                have h3 : i < (cutText measure (cc :: cs) W).1.length := hilt
                have h2 : (cutText measure (cc :: cs) W).1.length
                    ≤ cs.length + 1 := by simpa using hlenle
                simp only [List.length_cons] at hlen ⊢
                generalize hL : (cutText measure (cc :: cs) W).1.length = L
                  at h3 h2 ⊢
                omega
              rw [concatStrs, ih _ hbnd]
              rw [← List.append_assoc, List.take_append_drop]
              exact hfd
            · rw [if_neg hi, if_neg (by simp [hcfg])]
              exact hstd
        · exact hstd

/-- The line texts of a paragraph concatenate back to the paragraph
(hyphenation disabled). -/
theorem paraTexts_concat (measure : Str → Nat) (W : Nat) (cfg : LayoutCfg)
    (hcfg : cfg.hyphenate = false) (p : Str) :
    concatStrs (paraTexts measure W cfg p) = p := by
  unfold paraTexts
  split
  · rename_i h
    subst h
    rfl
  · split
    · simp [concatStrs]
    · exact layoutParaF_concat measure W cfg hcfg p.length p (le_refl _)

/-- Every paragraph contributes at least one line (hyphenation disabled). -/
theorem paraTexts_ne_nil (measure : Str → Nat) (W : Nat) (cfg : LayoutCfg)
    (hcfg : cfg.hyphenate = false) (p : Str) :
    paraTexts measure W cfg p ≠ [] := by
  intro hcon
  have := paraTexts_concat measure W cfg hcfg p
  rw [hcon] at this
  unfold paraTexts at hcon
  split at hcon
  · simp at hcon
  · split at hcon
    · simp at hcon
    · rename_i hp _
      exact hp this.symm

theorem mkLines_snd (texts : List Str) (offset : Nat) :
    (mkLines texts offset).2 = offset + (concatStrs texts).length := by
  induction texts generalizing offset with
  | nil => simp [mkLines, concatStrs]
  | cons t ts ih =>
    rw [mkLines, ih (offset + t.length), concatStrs, List.length_append]
    omega

theorem mkLines_concatWithNl (texts : List Str) (offset : Nat) :
    concatWithNl (mkLines texts offset).1 = concatStrs texts := by
  induction texts generalizing offset with
  | nil => rfl
  | cons t ts ih =>
    rw [mkLines, concatWithNl, ih (offset + t.length), concatStrs]
    have : lineNl { text := t, start := offset, stop := offset + t.length }
        = [] := by
      simp [lineNl]
    rw [this]
    simp

theorem mkLines_fits (F : Str) (texts : List Str) (offset : Nat)
    (h : (F.drop offset).take (concatStrs texts).length = concatStrs texts) :
    ∀ L ∈ (mkLines texts offset).1, lineFits F L := by
  induction texts generalizing offset with
  | nil => simp [mkLines]
  | cons t ts ih =>
    intro L hL
    rw [mkLines] at hL
    simp only [List.mem_cons] at hL
    have hlen : t.length ≤ (concatStrs (t :: ts)).length := by
      rw [concatStrs, List.length_append]
      omega
    have hht : (F.drop offset).take t.length = t := by
      have h2 := congrArg (List.take t.length) h
      rw [List.take_take, min_eq_left hlen] at h2
      rw [h2, concatStrs, List.take_left]
    rcases hL with rfl | hL
    · constructor
      · have hnl : lineNl { text := t, start := offset,
                             stop := offset + t.length } = [] := by
          simp [lineNl]
        rw [hnl]
        simpa using hht
      · left
        rfl
    · refine ih (offset + t.length) ?_ L hL
      have h3 := congrArg (List.drop t.length) h
      rw [List.drop_take, List.drop_drop] at h3
      rw [concatStrs] at h3
      rw [List.drop_left] at h3
      have harith : (t ++ concatStrs ts).length - t.length
          = (concatStrs ts).length := by
        rw [List.length_append]
        omega
      rw [harith] at h3
      exact h3

theorem mkLines_last (texts : List Str) (offset : Nat) (hne : texts ≠ []) :
    ∃ l L, (mkLines texts offset).1 = l ++ [L] ∧
      L.stop = (mkLines texts offset).2 ∧
      L.stop = L.start + L.text.length := by
  induction texts generalizing offset with
  | nil => exact absurd rfl hne
  | cons t ts ih =>
    cases ts with
    | nil =>
      exact ⟨[], { text := t, start := offset, stop := offset + t.length },
        rfl, rfl, rfl⟩
    | cons t2 ts2 =>
      obtain ⟨l, L, h1, h2, h3⟩ := ih (offset + t.length) (by simp)
      refine ⟨{ text := t, start := offset, stop := offset + t.length } :: l,
        L, ?_, ?_, h3⟩
      · rw [mkLines, h1]
        rfl
      · rw [mkLines]
        exact h2

theorem bumpLast_append (l : List Line) (L : Line) :
    bumpLast (l ++ [L]) = l ++ [{ L with stop := L.stop + 1 }] := by
  induction l with
  | nil => rfl
  | cons a l2 ih =>
    cases l2 with
    | nil => rfl
    | cons b l3 =>
      have hstep : bumpLast ((a :: b :: l3) ++ [L])
          = a :: bumpLast ((b :: l3) ++ [L]) := rfl
      rw [hstep, ih]
      rfl

theorem concatWithNl_append (a b : List Line) :
    concatWithNl (a ++ b) = concatWithNl a ++ concatWithNl b := by
  induction a with
  | nil => rfl
  | cons L ls ih =>
    rw [List.cons_append, concatWithNl, concatWithNl, ih]
    simp [List.append_assoc]

theorem splitOnNl_ne_nil (t : Str) : splitOnNl t ≠ [] := by
  cases t with
  | nil => simp [splitOnNl]
  | cons c cs =>
    rw [splitOnNl]
    split
    · simp
    · rcases h : splitOnNl cs with _ | ⟨p, ps⟩ <;> simp [h]

/-- Joining the paragraphs with `'\n'` recovers the split text. -/
theorem splitOnNl_intercalate (t : Str) : intercalateNl (splitOnNl t) = t := by
  induction t with
  | nil => rfl
  | cons c cs ih =>
    rw [splitOnNl]
    split
    · rename_i hc
      rcases h : splitOnNl cs with _ | ⟨p, ps⟩
      · exact absurd h (splitOnNl_ne_nil cs)
      · rw [h] at ih
        rw [intercalateNl, ih, hc]
        rfl
    · rcases h : splitOnNl cs with _ | ⟨p, ps⟩
      · exact absurd h (splitOnNl_ne_nil cs)
      · rw [h] at ih
        simp only [h]
        cases ps with
        | nil =>
          rw [intercalateNl] at ih ⊢
          rw [ih]
        | cons q qs =>
          rw [intercalateNl] at ih ⊢
          rw [← ih]
          rfl

/-- Per-paragraph assembly: with hyphenation disabled, the line table of a
paragraph list reconstructs the '\n'-joined text, and every line's offsets
index its exact substring of the flattened text `F`. -/
theorem linesOfParas_spec (measure : Str → Nat) (W : Nat) (cfg : LayoutCfg)
    (hcfg : cfg.hyphenate = false) (F : Str) :
    ∀ (paras : List Str) (offset : Nat),
      F.drop offset = intercalateNl paras →
      concatWithNl (linesOfParas measure W cfg paras offset)
          = intercalateNl paras ∧
      ∀ L ∈ linesOfParas measure W cfg paras offset, lineFits F L := by
  intro paras
  induction paras with
  | nil =>
    intro offset hF
    exact ⟨rfl, by simp [linesOfParas]⟩
  | cons p ps ih =>
    intro offset hF
    cases ps with
    | nil =>
      rw [linesOfParas]
      have hpc : concatStrs (paraTexts measure W cfg p) = p :=
        paraTexts_concat measure W cfg hcfg p
      have hFp : F.drop offset = p := by
        rw [hF]
        rfl
      have htake : (F.drop offset).take
          (concatStrs (paraTexts measure W cfg p)).length
          = concatStrs (paraTexts measure W cfg p) := by
        rw [hpc, hFp, List.take_length]
      refine ⟨?_, mkLines_fits F _ offset htake⟩
      rw [mkLines_concatWithNl, hpc]
      rfl
    | cons p2 ps2 =>
      rw [linesOfParas]
      have hpc : concatStrs (paraTexts measure W cfg p) = p :=
        paraTexts_concat measure W cfg hcfg p
      have hFp : F.drop offset = p ++ '\n' :: intercalateNl (p2 :: ps2) := by
        rw [hF]
        rfl
      have hsnd : (mkLines (paraTexts measure W cfg p) offset).2
          = offset + p.length := by
        rw [mkLines_snd, hpc]
      have hFrec : F.drop ((mkLines (paraTexts measure W cfg p) offset).2 + 1)
          = intercalateNl (p2 :: ps2) := by
        rw [hsnd]
        have hdd : F.drop (offset + p.length + 1)
            = (F.drop offset).drop (p.length + 1) := by
          rw [List.drop_drop]
          congr 1
        rw [hdd, hFp, List.drop_append_eq_append_drop,
          List.drop_eq_nil_of_le (by omega : p.length ≤ p.length + 1),
          show p.length + 1 - p.length = 1 by omega]
        rfl
      obtain ⟨ihc, ihf⟩ :=
        ih ((mkLines (paraTexts measure W cfg p) offset).2 + 1) hFrec
      have htake : (F.drop offset).take
          (concatStrs (paraTexts measure W cfg p)).length
          = concatStrs (paraTexts measure W cfg p) := by
        rw [hpc, hFp, List.take_left]
      have hfits := mkLines_fits F _ offset htake
      obtain ⟨l, L, hdec, hstop2, hstop1⟩ :=
        mkLines_last (paraTexts measure W cfg p) offset
          (paraTexts_ne_nil measure W cfg hcfg p)
      have hLstart : L.start + L.text.length = offset + p.length := by
        rw [← hstop1, hstop2, hsnd]
      have hLfit := hfits L (by rw [hdec]; simp)
      have hLnl : lineNl L = [] := by
        simp only [lineNl]
        rw [if_neg (by omega)]
      have hnl' : lineNl { L with stop := L.stop + 1 } = ['\n'] := by
        simp only [lineNl]
        rw [if_pos (by omega)]
      have htakeL : (F.drop L.start).take L.text.length = L.text := by
        have h0 := hLfit.1
        rw [hLnl, List.append_nil,
          show L.stop - L.start = L.text.length by omega] at h0
        exact h0
      have hsplitF : F.drop L.start
          = L.text ++ ('\n' :: intercalateNl (p2 :: ps2)) := by
        have h1 : F.drop L.start
            = L.text ++ (F.drop L.start).drop L.text.length := by
          conv_lhs => rw [← List.take_append_drop L.text.length
            (F.drop L.start)]
          rw [htakeL]
        have h2 : (F.drop L.start).drop L.text.length
            = F.drop (L.start + L.text.length) := by
          rw [List.drop_drop]
        have h3 : F.drop (offset + p.length)
            = (F.drop offset).drop p.length := by
          rw [List.drop_drop]
        rw [h1, h2, hLstart, h3, hFp, List.drop_left]
      have hbump : lineFits F { L with stop := L.stop + 1 } := by
        constructor
        · show (F.drop L.start).take (L.stop + 1 - L.start)
              = L.text ++ lineNl { L with stop := L.stop + 1 }
          rw [hnl', show L.stop + 1 - L.start = L.text.length + 1 by omega,
            hsplitF, List.take_append_eq_append_take,
            List.take_of_length_le (by omega),
            show L.text.length + 1 - L.text.length = 1 by omega]
          rfl
        · right
          show L.stop + 1 = L.start + L.text.length + 1
          omega
      have hcm : concatWithNl l ++ L.text = p := by
        have h0 : concatWithNl (l ++ [L]) = p := by
          rw [← hdec, mkLines_concatWithNl, hpc]
        rw [concatWithNl_append, concatWithNl, concatWithNl, hLnl] at h0
        simpa using h0
      constructor
      · rw [concatWithNl_append, ihc, hdec, bumpLast_append,
          concatWithNl_append]
        rw [show concatWithNl [{ L with stop := L.stop + 1 }]
            = L.text ++ ['\n'] from by
          rw [concatWithNl, concatWithNl, hnl']
          simp]
        rw [intercalateNl]
        conv_rhs => rw [← hcm]
        simp [List.append_assoc]
      · intro x hx
        rw [hdec, bumpLast_append] at hx
        rcases List.mem_append.mp hx with hx | hx
        · rcases List.mem_append.mp hx with hx1 | hx1
          · refine hfits x ?_
            rw [hdec]
            exact List.mem_append.mpr (Or.inl hx1)
          · have hxe : x = { L with stop := L.stop + 1 } := by
              simpa using hx1
            rw [hxe]
            exact hbump
        · exact ihf x hx

/-- **C4 (corrected).** For every buffer text, measurement function,
available width and wrapping configuration of the default style-unaware
layout path *with hyphenation disabled*, after the layout computes the line
table, concatenating the `text` fields of the produced lines — reinserting
one `'\n'` for each explicit newline accounted for in a line's end offset —
reconstructs exactly the buffer's flattened text, and every line's
start/end offsets index that exact substring (text plus accounted newline)
of the flattened text.  When hyphenation is enabled the reconstruction
fails: the appended hyphen characters are not part of the buffer and shift
all following offsets (see the counterexample). -/
theorem c4_layout_reconstruction (measure : Str → Nat) (cfg : LayoutCfg)
    (W : Nat) (F : Str) (hcfg : cfg.hyphenate = false) :
    concatWithNl (computeLines measure cfg W F) = F ∧
    ∀ L ∈ computeLines measure cfg W F, lineFits F L := by
  have hs := splitOnNl_intercalate F
  have hspec := linesOfParas_spec measure W cfg hcfg F (splitOnNl F) 0
    (by simpa using hs.symm)
  rw [computeLines]
  exact ⟨hspec.1.trans hs, hspec.2⟩

/-- **C4 witness.** The amended reconstruction on a concrete two-paragraph
text with the constructor's default wrapping configuration and width 1
(forcing per-character wrapping). -/
theorem c4_witness :
    defaultWrapCfg.hyphenate = false ∧
    concatWithNl (computeLines List.length defaultWrapCfg 1
        "ab\ncd".toList) = "ab\ncd".toList :=
  ⟨rfl, (c4_layout_reconstruction List.length defaultWrapCfg 1
    "ab\ncd".toList rfl).1⟩
